import Mathlib

/-!
Verification of the match engine of the AIChessTournament repository
(src/app/api/match/route.ts together with the pure helpers of
src/lib/chess-utils.ts) against its natural-language specification.

The TypeScript code is shallowly embedded: the pure helpers become Lean
functions, and the stream-emitting ply loop of the POST handler becomes a
step function on an explicit engine state which returns the list of stream
events the iteration emits.  The rules library (chess.js) and the
model call are external collaborators specified only at their interface
boundary; they enter the embedding as a parameter structure of operations
and as a per-ply outcome oracle, respectively.

String primitives of JavaScript (trim, toLowerCase, split) are modelled by
character-list functions; clock values (JavaScript numbers) are modelled by
an arbitrary linear ordered ring, instantiated with ℤ for concrete runs and
with ℚ where fractional minute allotments matter.  `Math.max(0, x - y)` is
modelled literally as `max 0 (x - y)`.
-/

namespace AIChess

/-- Engine-side color (the strings "white" / "black" in the source). -/
inductive Color
  | white
  | black
  deriving DecidableEq, Repr

/-- The other color (`activeColor === "white" ? "black" : "white"`). -/
def Color.other : Color → Color
  | .white => .black
  | .black => .white

/-- chess.js side-to-move color, the strings "w" / "b". -/
inductive PieceColor
  | w
  | b
  deriving DecidableEq, Repr

/-- JavaScript `String.prototype.trim`: drop whitespace from both ends. -/
def trimChars (l : List Char) : List Char :=
  ((l.dropWhile Char.isWhitespace).reverse.dropWhile Char.isWhitespace).reverse

/-- JavaScript `String.prototype.toLowerCase`, character by character. -/
def lowerChars (l : List Char) : List Char :=
  l.map Char.toLower

/-! ## Move parser (src/lib/chess-utils.ts, parseUciMove / isSquare) -/

/-- One character survives the source's `replace(/[^a-z0-9]/g, "")` exactly
when it is a lowercase letter or a digit (the text was lowercased first). -/
def keptAlnum (c : Char) : Bool :=
  ('a' ≤ c && c ≤ 'z') || ('0' ≤ c && c ≤ '9')

/-- The source then strips a leading "move" label with `replace(/^move:?/i, "")`.
After lowercasing and the alphanumeric filter no colon and no uppercase
letter can remain, so the regex reduces to removing one leading "move". -/
def stripMoveLabel : List Char → List Char
  | 'm' :: 'o' :: 'v' :: 'e' :: rest => rest
  | l => l

/-- Cleaning chain of parseUciMove:
`raw.trim().toLowerCase().replace(/[^a-z0-9]/g, "").replace(/^move:?/i, "").trim()`.
The final `.trim()` is a no-op because the filter already removed all
whitespace. -/
def cleanMove (raw : String) : List Char :=
  stripMoveLabel ((lowerChars (trimChars raw.toList)).filter keptAlnum)

/-- isSquare from src/lib/chess-utils.ts: the regex `/^[a-h][1-8]$/`. -/
def isSquare : List Char → Bool
  | [f, r] => ('a' ≤ f && f ≤ 'h') && ('1' ≤ r && r ≤ '8')
  | _ => false

/-- A parsed move attempt (`{ from: Square; to: Square; promotion?: PieceSymbol }`).
Squares are kept as the two-character lists cut out of the cleaned text. -/
structure UciMove where
  fromSq : List Char
  toSq : List Char
  promotion : Option Char
  deriving DecidableEq, Repr

/-- The promotion letters accepted by the source (`"qrbn".includes(promotion)`). -/
def promoLetters : List Char := ['q', 'r', 'b', 'n']

/-- parseUciMove from src/lib/chess-utils.ts. -/
def parseUciMove (raw : String) : Option UciMove :=
  if cleanMove raw = "resign".toList ∨ cleanMove raw = [] then none
  else if (cleanMove raw).length < 4 ∨ 5 < (cleanMove raw).length then none
  else if isSquare ((cleanMove raw).take 2) = false ∨
      isSquare (((cleanMove raw).drop 2).take 2) = false then none
  else
    match (cleanMove raw)[4]? with
    | some p =>
        if p ∈ promoLetters then
          some ⟨(cleanMove raw).take 2, ((cleanMove raw).drop 2).take 2, some p⟩
        else some ⟨(cleanMove raw).take 2, ((cleanMove raw).drop 2).take 2, none⟩
    | none => some ⟨(cleanMove raw).take 2, ((cleanMove raw).drop 2).take 2, none⟩

end AIChess

namespace AIChess

/-- C7: the move parser lowercases its input, strips non-alphanumeric
characters and a leading "move" label (the `cleanMove` chain), and returns
null exactly when the cleaned text is empty, equals "resign", has length
outside 4–5, or either two-character square fails the a–h/1–8 pattern; a
present 5th character becomes the promotion piece when it is one of
q, r, b, n and is silently dropped otherwise, the move itself still being
returned. -/
theorem parseUciMove_none_iff_and_some_spec (raw : String) :
    (parseUciMove raw = none ↔
      cleanMove raw = [] ∨ cleanMove raw = "resign".toList ∨
      (cleanMove raw).length < 4 ∨ 5 < (cleanMove raw).length ∨
      isSquare ((cleanMove raw).take 2) = false ∨
      isSquare (((cleanMove raw).drop 2).take 2) = false) ∧
    (∀ m, parseUciMove raw = some m →
      m.fromSq = (cleanMove raw).take 2 ∧
      m.toSq = ((cleanMove raw).drop 2).take 2 ∧
      m.promotion = ((cleanMove raw)[4]?).bind
        (fun p => if p ∈ promoLetters then some p else none)) := by
  unfold parseUciMove
  split_ifs with h1 h2 h3
  · constructor
    · simp only [true_iff]
      rcases h1 with h | h
      · exact Or.inr (Or.inl h)
      · exact Or.inl h
    · intro m hm; cases hm
  · constructor
    · simp only [true_iff]
      rcases h2 with h | h
      · exact Or.inr (Or.inr (Or.inl h))
      · exact Or.inr (Or.inr (Or.inr (Or.inl h)))
    · intro m hm; cases hm
  · constructor
    · simp only [true_iff]
      rcases h3 with h | h
      · exact Or.inr (Or.inr (Or.inr (Or.inr (Or.inl h))))
      · exact Or.inr (Or.inr (Or.inr (Or.inr (Or.inr h))))
    · intro m hm; cases hm
  · push_neg at h1 h2 h3
    have hRHS : ¬ (cleanMove raw = [] ∨ cleanMove raw = "resign".toList ∨
        (cleanMove raw).length < 4 ∨ 5 < (cleanMove raw).length ∨
        isSquare ((cleanMove raw).take 2) = false ∨
        isSquare (((cleanMove raw).drop 2).take 2) = false) := by
      push_neg
      exact ⟨h1.2, h1.1, h2.1, h2.2, h3.1, h3.2⟩
    rcases h4 : (cleanMove raw)[4]? with _ | p
    · simp only [h4]
      refine ⟨iff_of_false (by simp) hRHS, ?_⟩
      intro m hm
      cases hm
      simp [h4]
    · simp only [h4]
      split_ifs with hp
      · refine ⟨iff_of_false (by simp) hRHS, ?_⟩
        intro m hm
        cases hm
        simp [h4, hp]
      · refine ⟨iff_of_false (by simp) hRHS, ?_⟩
        intro m hm
        cases hm
        simp [h4, hp]

/-- Witness for the C7 theorem: instantiate the characterization at the raw
text "Move: e7e8x!" — cleaned to e7e8x, whose garbled promotion letter x is
dropped while the move itself is kept. -/
theorem parseUciMove_none_iff_and_some_spec_witness :
    parseUciMove "Move: e7e8x!" = some ⟨['e', '7'], ['e', '8'], none⟩ ∧
    (⟨['e', '7'], ['e', '8'], none⟩ : UciMove).promotion =
      ((cleanMove "Move: e7e8x!")[4]?).bind
        (fun p => if p ∈ promoLetters then some p else none) :=
  ⟨by decide,
   ((parseUciMove_none_iff_and_some_spec "Move: e7e8x!").2 _ (by decide)).2.2⟩

/-! ## Chaos move application (src/lib/chess-utils.ts, applyChaosMove) -/

/-- A board square occupant as exposed by the rules library's `board()`
view: a piece symbol (lowercase letter) and a color.  The `square` field the
source also stores on the placed piece is not serialized by `boardToFen` and
is omitted. -/
structure Piece where
  ptype : Char
  pcolor : PieceColor
  deriving DecidableEq, Repr

/-- The 8×8 (rank-major, rank 8 first) board array of the rules library. -/
abbrev Board := List (List (Option Piece))

/-- JavaScript `String.prototype.split` with a one-character separator,
on character lists.  `"".split(sep)` is `[""]` and consecutive separators
produce empty fields, as in JavaScript. -/
def splitOnChar (sep : Char) : List Char → List (List Char)
  | [] => [[]]
  | c :: rest =>
      if c = sep then [] :: splitOnChar sep rest
      else
        match splitOnChar sep rest with
        | [] => [[c]]
        | g :: gs => (c :: g) :: gs

/-- `fen.split(" ")` as used by the source on FEN strings. -/
def jsSplitSpace (s : String) : List String :=
  (splitOnChar ' ' s.toList).map List.asString

/-- Uppercase letter test (FEN piece chars: uppercase = white). -/
def isUpperAlpha (c : Char) : Bool := 'A' ≤ c && c ≤ 'Z'

/-- Modelled from the spec: one rank of the rules-library collaborator's
`board()` view, read off a FEN placement rank (chess.js is external to the
repository; §6 specifies position-string construction, whose placement field
expands digits to empty squares and letters to pieces, uppercase white). -/
def rankSquares : List Char → List (Option Piece)
  | [] => []
  | c :: rest =>
      if '1' ≤ c ∧ c ≤ '8' then
        List.replicate (c.toNat - 48) none ++ rankSquares rest
      else (some ⟨Char.toLower c, if isUpperAlpha c then .w else .b⟩) :: rankSquares rest

/-- Modelled from the spec: the rules-library collaborator's `board()` array
for a position string — ranks split on "/", rank 8 first (§6: the engine's
chaos policy copies this array out and mutates it). -/
def fenBoard (fen : String) : Board :=
  (splitOnChar '/' (((splitOnChar ' ' fen.toList).headD []))).map rankSquares

/-- FEN character of a board piece: the symbol uppercased for white and
lowercased for black (source lines 65–66 of chess-utils). -/
def pieceFenChar (p : Piece) : Char :=
  if p.pcolor = .w then Char.toUpper p.ptype else Char.toLower p.ptype

/-- One rank of boardToFen (chess-utils lines 53–69): runs of empty squares
are flushed as their decimal count before each piece symbol and at the end
of the rank.  The accumulator is the source's `empty` counter. -/
def rowToFenAux : Nat → List (Option Piece) → List Char
  | em, [] => if em ≠ 0 then (Nat.repr em).toList else []
  | em, none :: rest => rowToFenAux (em + 1) rest
  | em, some p :: rest =>
      (if em ≠ 0 then (Nat.repr em).toList else []) ++
        pieceFenChar p :: rowToFenAux 0 rest

/-- JavaScript `Array.prototype.join("/")` on character lists. -/
def joinSlash : List (List Char) → List Char
  | [] => []
  | [r] => r
  | r :: rest => r ++ '/' :: joinSlash rest

/-- boardToFen from src/lib/chess-utils.ts: ranks joined with "/". -/
def boardToFenChars (b : Board) : List Char :=
  joinSlash (b.map (rowToFenAux 0))

/-- boardToFen, packaged as a string. -/
def boardToFen (b : Board) : String :=
  (boardToFenChars b).asString

/-- The file-letter table of chess-utils (`const files = ["a", ..., "h"]`). -/
def files : List Char := ['a', 'b', 'c', 'd', 'e', 'f', 'g', 'h']

/-- squareToIndex from chess-utils: `{ rank: 8 - digit, file: files.indexOf }`,
returned here as the pair (rank, file).  It is only ever applied to squares
accepted by `isSquare` (where `List.indexOf` and JavaScript `indexOf`
agree and the rank subtraction stays in range). -/
def squareToIndex (sq : List Char) : Nat × Nat :=
  (8 - ((sq[1]?.getD ' ').toNat - 48), files.indexOf (sq[0]?.getD ' '))

/-- Read `board[rank][file]` (in-range reads of the 8×8 array). -/
def getSquare (b : Board) (rf : Nat × Nat) : Option Piece :=
  (b.getD rf.1 []).getD rf.2 none

/-- Write `board[rank][file] = v`. -/
def setSquare (b : Board) (rf : Nat × Nat) (v : Option Piece) : Board :=
  b.set rf.1 ((b.getD rf.1 []).set rf.2 v)

/-- The board mutation of applyChaosMove (chess-utils lines 80–90): read the
source square, synthesize a pawn (or the promotion piece) of the acting
color if it was empty, clear the source square, and place a piece of the
acting color — retyped by the promotion letter if one was given — on the
destination square. -/
def chaosBoard (b : Board) (uci : UciMove) (color : PieceColor) : Board :=
  let fromIdx := squareToIndex uci.fromSq
  let toIdx := squareToIndex uci.toSq
  let existing := getSquare b fromIdx
  let piece : Piece := existing.getD ⟨uci.promotion.getD 'p', color⟩
  let b1 := setSquare b fromIdx none
  setSquare b1 toIdx (some ⟨uci.promotion.getD piece.ptype, color⟩)

/-- Return value of applyChaosMove: the new position string and the move
token recorded into the history. -/
structure ChaosOutcome where
  fen : String
  san : String
  deriving DecidableEq, Repr

/-- applyChaosMove from src/lib/chess-utils.ts: mutate the board array
literally, then reserialize with side-to-move flipped, castling and
en-passant fields "-", halfmove clock 0, and the full-move counter bumped
after a black move. -/
def applyChaosMove (fen : String) (uci : UciMove) (color : PieceColor)
    (fullmoveNumber : Nat) : ChaosOutcome :=
  let board2 := chaosBoard (fenBoard fen) uci color
  let placement := boardToFen board2
  let nextTurn : String := if color = .w then "b" else "w"
  let nextFullmove := if color = .b then fullmoveNumber + 1 else fullmoveNumber
  ⟨placement ++ " " ++ nextTurn ++ " - - 0 " ++ Nat.repr nextFullmove,
   uci.fromSq.asString ++ uci.toSq.asString ++ (uci.promotion.map Char.toString).getD ""⟩

/-- The 8×8 shape check for a parsed board. -/
def boardIs8 (b : Board) : Bool :=
  b.length = 8 && b.all fun r => r.length = 8

/-- Every occupied square carries one of the six chess piece symbols (true
of every board the rules library hands out). -/
def validPieceTypes (b : Board) : Bool :=
  b.all fun r => r.all fun sq =>
    match sq with
    | none => true
    | some p => p.ptype ∈ ['p', 'n', 'b', 'r', 'q', 'k']

/-- The six chess piece symbols. -/
def pieceLetters : List Char := ['p', 'n', 'b', 'r', 'q', 'k']

/-- Propositional form of `validPieceTypes`. -/
def ValidB (b : Board) : Prop :=
  ∀ r ∈ b, ∀ sq ∈ r, ∀ p, sq = some p → p.ptype ∈ pieceLetters

/-- Propositional form of `boardIs8`. -/
def Board8 (b : Board) : Prop :=
  b.length = 8 ∧ ∀ r ∈ b, r.length = 8

theorem validB_of_validPieceTypes {b : Board} (h : validPieceTypes b = true) :
    ValidB b := by
  intro r hr sq hsq p hp
  simp only [validPieceTypes, List.all_eq_true] at h
  have := h r hr sq hsq
  subst hp
  simpa [pieceLetters] using this

theorem board8_of_boardIs8 {b : Board} (h : boardIs8 b = true) : Board8 b := by
  simp only [boardIs8, Bool.and_eq_true, List.all_eq_true, decide_eq_true_eq] at h
  exact ⟨h.1, fun r hr => h.2 r hr⟩

theorem board8_row_length {b : Board} (hb : Board8 b) {i : Nat} (hi : i < 8) :
    (b.getD i []).length = 8 := by
  rw [List.getD_eq_getElem?_getD]
  have hlt : i < b.length := by rw [hb.1]; exact hi
  rw [List.getElem?_eq_getElem hlt]
  exact hb.2 _ (List.getElem_mem hlt)

theorem board8_setSquare {b : Board} (hb : Board8 b) {rf : Nat × Nat}
    (h1 : rf.1 < 8) (v : Option Piece) : Board8 (setSquare b rf v) := by
  constructor
  · simpa [setSquare] using hb.1
  · intro r hr
    rcases List.mem_or_eq_of_mem_set hr with hr | rfl
    · exact hb.2 _ hr
    · rw [List.length_set]
      exact board8_row_length hb h1

theorem validB_setSquare {b : Board} {rf : Nat × Nat} {v : Option Piece}
    (hv : ValidB b) (hvv : ∀ p, v = some p → p.ptype ∈ pieceLetters) :
    ValidB (setSquare b rf v) := by
  intro r hr sq hsq p hp
  rcases List.mem_or_eq_of_mem_set hr with hr | rfl
  · exact hv r hr sq hsq p hp
  · rcases List.mem_or_eq_of_mem_set hsq with hsq | rfl
    · rw [List.getD_eq_getElem?_getD] at hsq
      rcases hrow : b[rf.1]? with _ | row
      · rw [hrow] at hsq; simp at hsq
      · rw [hrow] at hsq
        exact hv row (List.getElem?_mem hrow) sq hsq p hp
    · exact hvv p hp

theorem getSquare_setSquare {b : Board} {rf : Nat × Nat} (v : Option Piece)
    (h1 : rf.1 < b.length) (h2 : rf.2 < (b.getD rf.1 []).length) :
    getSquare (setSquare b rf v) rf = v := by
  rw [List.getD_eq_getElem?_getD] at h2
  unfold getSquare setSquare
  simp only [List.getD_eq_getElem?_getD]
  rw [List.getElem?_set_self h1]
  simp only [Option.getD_some]
  rw [List.getElem?_set_self h2]
  rfl

theorem getSquare_mem_valid {b : Board} (hv : ValidB b) {rf : Nat × Nat}
    {q : Piece} (h : getSquare b rf = some q) : q.ptype ∈ pieceLetters := by
  unfold getSquare at h
  simp only [List.getD_eq_getElem?_getD] at h
  rcases hrow : b[rf.1]? with _ | row
  · rw [hrow] at h; simp at h
  · rw [hrow] at h
    simp only [Option.getD_some] at h
    rcases hsq : row[rf.2]? with _ | sq
    · rw [hsq] at h; simp at h
    · rw [hsq] at h
      simp only [Option.getD_some] at h
      exact hv row (List.getElem?_mem hrow) sq (List.getElem?_mem hsq) q h

theorem mem_files_of_le {f : Char} (h1 : 'a' ≤ f) (h2 : f ≤ 'h') : f ∈ files := by
  have h1' : 97 ≤ f.toNat := h1
  have h2' : f.toNat ≤ 104 := h2
  have hc := Char.ofNat_toNat f
  interval_cases h : f.toNat <;> (rw [← hc]; decide)

theorem squareToIndex_lt {sq : List Char} (h : isSquare sq = true) :
    (squareToIndex sq).1 < 8 ∧ (squareToIndex sq).2 < 8 := by
  match sq, h with
  | [f, r], h =>
    simp only [isSquare, Bool.and_eq_true, decide_eq_true_eq] at h
    obtain ⟨⟨hf1, hf2⟩, hr1, hr2⟩ := h
    constructor
    · have ha : 49 ≤ r.toNat := hr1
      have hb : r.toNat ≤ 56 := hr2
      simp only [squareToIndex]
      simp only [List.getElem?_cons_succ, List.getElem?_cons_zero, Option.getD_some]
      omega
    · simp only [squareToIndex]
      simp only [List.getElem?_cons_zero, Option.getD_some]
      have := List.indexOf_lt_length.mpr (mem_files_of_le hf1 hf2)
      simpa [files] using this

/-! Characters produced by the serialization never contain a space, which
pins down the six space-separated fields of the chaos FEN. -/

theorem digitChar_ne_space : ∀ n : Nat, Nat.digitChar n ≠ ' '
  | 0 => by decide
  | 1 => by decide
  | 2 => by decide
  | 3 => by decide
  | 4 => by decide
  | 5 => by decide
  | 6 => by decide
  | 7 => by decide
  | 8 => by decide
  | 9 => by decide
  | 10 => by decide
  | 11 => by decide
  | 12 => by decide
  | 13 => by decide
  | 14 => by decide
  | 15 => by decide
  | _ + 16 => show '*' ≠ ' ' by decide

theorem toDigitsCore_ne_space :
    ∀ (fuel n : Nat) (ds : List Char), (∀ c ∈ ds, c ≠ ' ') →
      ∀ c ∈ Nat.toDigitsCore 10 fuel n ds, c ≠ ' ' := by
  intro fuel
  induction fuel with
  | zero => intro n ds h c hc; exact h c hc
  | succ f ih =>
    intro n ds h c hc
    simp only [Nat.toDigitsCore] at hc
    split at hc
    · rcases List.mem_cons.mp hc with rfl | hc
      · exact digitChar_ne_space _
      · exact h c hc
    · refine ih _ _ ?_ c hc
      intro d hd
      rcases List.mem_cons.mp hd with rfl | hd
      · exact digitChar_ne_space _
      · exact h d hd

theorem repr_ne_space (n : Nat) : ∀ c ∈ (Nat.repr n).toList, c ≠ ' ' := by
  intro c hc
  exact toDigitsCore_ne_space (n + 1) n [] (by simp) c hc

theorem pieceFenChar_ne_space :
    ∀ p : Piece, p.ptype ∈ pieceLetters → pieceFenChar p ≠ ' ' := by
  rintro ⟨t, pc⟩ h
  simp only [pieceLetters, List.mem_cons, List.not_mem_nil, or_false] at h
  rcases h with rfl | rfl | rfl | rfl | rfl | rfl <;> cases pc <;> decide

theorem rowToFenAux_ne_space (r : List (Option Piece))
    (hr : ∀ sq ∈ r, ∀ p, sq = some p → p.ptype ∈ pieceLetters) :
    ∀ em, ∀ c ∈ rowToFenAux em r, c ≠ ' ' := by
  induction r with
  | nil =>
    intro em c hc
    simp only [rowToFenAux] at hc
    split at hc
    · exact repr_ne_space _ c hc
    · simp at hc
  | cons sq rest ih =>
    have hrest : ∀ s ∈ rest, ∀ p, s = some p → p.ptype ∈ pieceLetters :=
      fun s hs => hr s (List.mem_cons_of_mem _ hs)
    intro em c hc
    cases sq with
    | none => exact ih hrest (em + 1) c hc
    | some p =>
      simp only [rowToFenAux, List.mem_append, List.mem_cons] at hc
      rcases hc with hc | rfl | hc
      · split at hc
        · exact repr_ne_space _ c hc
        · simp at hc
      · exact pieceFenChar_ne_space p (hr (some p) (List.mem_cons_self _ _) p rfl)
      · exact ih hrest 0 c hc

theorem joinSlash_ne_space (ls : List (List Char))
    (h : ∀ l ∈ ls, ∀ c ∈ l, c ≠ ' ') : ∀ c ∈ joinSlash ls, c ≠ ' ' := by
  induction ls with
  | nil => intro c hc; simp [joinSlash] at hc
  | cons r rest ih =>
    intro c hc
    cases rest with
    | nil => exact h r (List.mem_cons_self _ _) c hc
    | cons r2 rest2 =>
      simp only [joinSlash, List.mem_append, List.mem_cons] at hc
      rcases hc with hc | rfl | hc
      · exact h r (List.mem_cons_self _ _) c hc
      · decide
      · exact ih (fun l hl => h l (List.mem_cons_of_mem _ hl)) c
          (by simpa [joinSlash] using hc)

theorem boardToFenChars_ne_space (b : Board) (hv : ValidB b) :
    ∀ c ∈ boardToFenChars b, c ≠ ' ' := by
  refine joinSlash_ne_space _ ?_
  intro l hl c hc
  rcases List.mem_map.mp hl with ⟨r, hr, rfl⟩
  exact rowToFenAux_ne_space r (hv r hr) 0 c hc

/-! Splitting on the space character. -/

theorem splitOnChar_append (sep : Char) (a rest : List Char)
    (h : ∀ c ∈ a, c ≠ sep) :
    splitOnChar sep (a ++ sep :: rest) = a :: splitOnChar sep rest := by
  induction a with
  | nil => simp [splitOnChar]
  | cons c a ih =>
    have hc : c ≠ sep := h c (List.mem_cons_self _ _)
    simp only [List.cons_append, splitOnChar, if_neg hc, List.append_eq]
    rw [ih (fun d hd => h d (List.mem_cons_of_mem _ hd))]

theorem splitOnChar_no_sep (sep : Char) (a : List Char)
    (h : ∀ c ∈ a, c ≠ sep) : splitOnChar sep a = [a] := by
  induction a with
  | nil => simp [splitOnChar]
  | cons c a ih =>
    have hc : c ≠ sep := h c (List.mem_cons_self _ _)
    simp only [splitOnChar, if_neg hc]
    rw [ih (fun d hd => h d (List.mem_cons_of_mem _ hd))]

theorem string_toList_append (s t : String) : (s ++ t).toList = s.toList ++ t.toList := rfl

theorem asString_toList (s : String) : s.toList.asString = s := rfl

theorem toList_asString (l : List Char) : l.asString.toList = l := rfl

/-- The standard initial position string (`new Chess().fen()`). -/
def startFen : String := "rnbqkbnr/pppppppp/8/8/8/8/PPPPPPPP/RNBQKBNR w KQkq - 0 1"

/-- C9: applyChaosMove always places on the destination square a piece of
the acting color — an opponent piece found on the source square is thereby
recolored rather than moved as-is — synthesizing a pawn (or the promotion
piece if one was given) when the source square was empty, and its output FEN
has castling-rights field "-", en-passant field "-", halfmove clock "0",
side-to-move flipped, and the full-move counter incremented exactly when the
acting color was black.  Hypotheses: the position parses to an 8×8 board of
chess pieces and the squares/promotion come from the move parser. -/
theorem applyChaosMove_dest_and_fields (fen : String) (u : UciMove)
    (color : PieceColor) (fm : Nat)
    (hb8 : boardIs8 (fenBoard fen) = true)
    (hvt : validPieceTypes (fenBoard fen) = true)
    (hfrom : isSquare u.fromSq = true) (hto : isSquare u.toSq = true)
    (hpromo : ∀ p, u.promotion = some p → p ∈ promoLetters) :
    (∃ t, getSquare (chaosBoard (fenBoard fen) u color) (squareToIndex u.toSq) =
        some ⟨t, color⟩ ∧
      t = u.promotion.getD
        (((getSquare (fenBoard fen) (squareToIndex u.fromSq)).map Piece.ptype).getD 'p')) ∧
    jsSplitSpace (applyChaosMove fen u color fm).fen =
      [boardToFen (chaosBoard (fenBoard fen) u color),
       if color = PieceColor.w then "b" else "w", "-", "-", "0",
       Nat.repr (if color = PieceColor.b then fm + 1 else fm)] := by
  have hb : Board8 (fenBoard fen) := board8_of_boardIs8 hb8
  have hv : ValidB (fenBoard fen) := validB_of_validPieceTypes hvt
  obtain ⟨hf1, hf2⟩ := squareToIndex_lt hfrom
  obtain ⟨ht1, ht2⟩ := squareToIndex_lt hto
  have hcb : chaosBoard (fenBoard fen) u color =
      setSquare (setSquare (fenBoard fen) (squareToIndex u.fromSq) none)
        (squareToIndex u.toSq)
        (some ⟨u.promotion.getD
          ((getSquare (fenBoard fen) (squareToIndex u.fromSq)).getD
            ⟨u.promotion.getD 'p', color⟩).ptype, color⟩) := rfl
  have hb1 : Board8 (setSquare (fenBoard fen) (squareToIndex u.fromSq) none) :=
    board8_setSquare hb hf1 none
  have hdest : getSquare (chaosBoard (fenBoard fen) u color) (squareToIndex u.toSq) =
      some ⟨u.promotion.getD
        ((getSquare (fenBoard fen) (squareToIndex u.fromSq)).getD
          ⟨u.promotion.getD 'p', color⟩).ptype, color⟩ := by
    rw [hcb]
    exact getSquare_setSquare _ (by rw [hb1.1]; exact ht1) (by
      rw [board8_row_length hb1 ht1]; exact ht2)
  constructor
  · refine ⟨_, hdest, ?_⟩
    rcases hex : getSquare (fenBoard fen) (squareToIndex u.fromSq) with _ | q
    · rcases hpq : u.promotion with _ | p <;> simp [hpq]
    · simp
  · have hplaced : (u.promotion.getD
        ((getSquare (fenBoard fen) (squareToIndex u.fromSq)).getD
          ⟨u.promotion.getD 'p', color⟩).ptype) ∈ pieceLetters := by
      rcases hpq : u.promotion with _ | p
      · rcases hex : getSquare (fenBoard fen) (squareToIndex u.fromSq) with _ | q
        · simp [pieceLetters]
        · simpa using getSquare_mem_valid hv hex
      · have hsub : ∀ x ∈ promoLetters, x ∈ pieceLetters := by decide
        simpa using hsub p (hpromo p hpq)
    have hvb1 : ValidB (setSquare (fenBoard fen) (squareToIndex u.fromSq) none) :=
      validB_setSquare hv (fun p hp => by cases hp)
    have hvb2 : ValidB (chaosBoard (fenBoard fen) u color) := by
      rw [hcb]
      refine validB_setSquare hvb1 (fun p hp => ?_)
      injection hp with hp
      rw [← hp]
      exact hplaced
    have hP := boardToFenChars_ne_space _ hvb2
    have hT : ∀ c ∈ (if color = PieceColor.w then "b" else "w").toList, c ≠ ' ' := by
      cases color <;> decide
    have hR := repr_ne_space (if color = PieceColor.b then fm + 1 else fm)
    have hsp : (" " : String).toList = [' '] := rfl
    have hdash : (" - - 0 " : String).toList = [' ', '-', ' ', '-', ' ', '0', ' '] := rfl
    have hfen : (applyChaosMove fen u color fm).fen =
        boardToFen (chaosBoard (fenBoard fen) u color) ++ " " ++
          (if color = PieceColor.w then "b" else "w") ++ " - - 0 " ++
          Nat.repr (if color = PieceColor.b then fm + 1 else fm) := by
      cases color <;> rfl
    have hlist : (applyChaosMove fen u color fm).fen.toList =
        boardToFenChars (chaosBoard (fenBoard fen) u color) ++ ' ' ::
          ((if color = PieceColor.w then "b" else "w").toList ++ ' ' ::
            (['-'] ++ ' ' :: (['-'] ++ ' ' ::
              (['0'] ++ ' ' ::
                (Nat.repr (if color = PieceColor.b then fm + 1 else fm)).toList)))) := by
      rw [hfen]
      simp only [string_toList_append, hsp, hdash, boardToFen, toList_asString,
        List.append_assoc]
      simp
    have hsplit : splitOnChar ' ' ((applyChaosMove fen u color fm).fen.toList) =
        [boardToFenChars (chaosBoard (fenBoard fen) u color),
         (if color = PieceColor.w then "b" else "w").toList, ['-'], ['-'], ['0'],
         (Nat.repr (if color = PieceColor.b then fm + 1 else fm)).toList] := by
      rw [hlist]
      rw [splitOnChar_append ' ' _ _ hP]
      rw [splitOnChar_append ' ' _ _ hT]
      rw [splitOnChar_append ' ' _ _ (by decide)]
      rw [splitOnChar_append ' ' _ _ (by decide)]
      rw [splitOnChar_append ' ' _ _ (by decide)]
      rw [splitOnChar_no_sep ' ' _ hR]
    unfold jsSplitSpace
    rw [hsplit]
    simp only [List.map]
    rw [asString_toList, asString_toList]
    show _ = [boardToFen (chaosBoard (fenBoard fen) u color), _, "-", "-", "0", _]
    simp [boardToFen]
    decide

/-- Witness for the C9 theorem: the chaos move e2e5 (an illegal pawn jump)
from the standard initial position, played by white. -/
theorem applyChaosMove_dest_and_fields_witness :
    (∃ t, getSquare (chaosBoard (fenBoard startFen) ⟨['e', '2'], ['e', '5'], none⟩
        PieceColor.w) (squareToIndex (['e', '5'] : List Char)) =
      some ⟨t, PieceColor.w⟩) ∧
    jsSplitSpace (applyChaosMove startFen ⟨['e', '2'], ['e', '5'], none⟩
        PieceColor.w 1).fen =
      [boardToFen (chaosBoard (fenBoard startFen) ⟨['e', '2'], ['e', '5'], none⟩
        PieceColor.w), "b", "-", "-", "0", Nat.repr 1] := by
  have h := applyChaosMove_dest_and_fields startFen ⟨['e', '2'], ['e', '5'], none⟩
    PieceColor.w 1 (by decide) (by decide) (by decide) (by decide)
    (fun p hp => by cases hp)
  obtain ⟨⟨t, ht, -⟩, h2⟩ := h
  refine ⟨⟨t, ht⟩, ?_⟩
  simpa using h2

/-! ## Data model of the match engine (src/lib/types.ts and route.ts) -/

/-- The rule variant (`MatchMode` in types.ts): "strict" | "chaos" | "bullet"
("bullet" is the timed variant). -/
inductive MatchMode
  | strict
  | chaos
  | bullet
  deriving DecidableEq, Repr

/-- `MatchResult.winner`: "white" | "black" | "draw". -/
inductive Winner
  | white
  | black
  | draw
  deriving DecidableEq, Repr

/-- A color as a winner value. -/
def Color.toWinner : Color → Winner
  | .white => .white
  | .black => .black

/-- The closed `MatchReason` enumeration of types.ts. -/
inductive MatchReason
  | checkmate
  | resignation
  | illegal
  | timeout
  | stalemate
  | fiftyMove
  | insufficient
  | threefold
  | maxMove
  deriving DecidableEq, Repr

/-- The `illegalCounts` object `{ white, black }`. -/
structure Counts where
  white : Nat
  black : Nat
  deriving DecidableEq, Repr

/-- `MatchClocks { whiteMs, blackMs }`; the clock value type `K` is ℤ or ℚ
in the instantiations used below. -/
structure MatchClocks (K : Type) where
  whiteMs : K
  blackMs : K
  deriving DecidableEq

/-- Clock component of a color. -/
def MatchClocks.get {K : Type} (c : MatchClocks K) : Color → K
  | .white => c.whiteMs
  | .black => c.blackMs

/-- `IllegalMoveSummary` (the `by` field is `byColor` here: `by` is reserved). -/
structure IllegalMoveSummary where
  byColor : Color
  move : String
  reason : String
  strikes : Nat
  ply : Nat
  deriving DecidableEq, Repr

/-- The `lastIllegalMoves` partial record passed into results. -/
structure IllegalPair where
  white : Option IllegalMoveSummary
  black : Option IllegalMoveSummary
  deriving DecidableEq, Repr

/-- `MatchResult` of types.ts, plus the `lastIllegalMoves` member the route
adds to the object it builds (`none` models the omitted argument). -/
structure MatchResult (K : Type) where
  winner : Winner
  reason : MatchReason
  moves : List String
  pgn : String
  illegalCounts : Counts
  clocks : Option (MatchClocks K)
  finalFen : String
  lastIllegalMoves : Option IllegalPair
  deriving DecidableEq

/-- `MatchStreamEvent`: the three tagged event shapes of types.ts.  Fields
that the route sometimes omits are `Option`s. -/
inductive MatchStreamEvent (K : Type) where
  | status (message : String) (illegalCounts : Option Counts)
      (clocks : Option (MatchClocks K)) (illegalMove : Option IllegalMoveSummary)
  | move (move : String) (fen : String) (san : Option String)
      (displayMoveNum : Option Nat) (ply : Nat) (activeColor : Color)
      (illegalCounts : Counts) (clocks : Option (MatchClocks K))
      (note : Option String) (timestamp : Nat)
  | endEvent (result : MatchResult K)
  deriving DecidableEq

/-- The move object returned by the rules library's attempt-move and
enumerate-legal-moves operations (the fields the route reads). -/
structure MoveRes where
  fromS : String
  toS : String
  promotion : Option String
  san : String
  deriving DecidableEq, Repr

/-- Modelled from the spec: the rules-library collaborator (chess.js is
external to the repository; §6 lists its interface: construct from a
position string — `fromFen` returns `none` where the constructor throws —
side-to-move, attempt-move (`none` models both a null return and a throw,
which the route catches into null), position/game-record serialization,
terminal-condition predicates, square-occupant lookup and legal-move
enumeration for rejection diagnosis). -/
structure RulesLib (σ : Type) where
  init : σ
  fromFen : String → Option σ
  turn : σ → PieceColor
  move : σ → String → Option (MoveRes × σ)
  fen : σ → String
  pgn : σ → String
  historyNonempty : σ → Bool
  pieceAt : σ → List Char → Option Piece
  legalMoves : σ → List MoveRes
  isCheckmate : σ → Bool
  isStalemate : σ → Bool
  isThreefoldRepetition : σ → Bool
  isInsufficientMaterial : σ → Bool
  isDraw : σ → Bool

/-- Outcome of one `fetchMove` call (the model-call collaborator with its
internal retry policy folded in): the trimmed response text, or a failure
with the error message the route inspects. -/
inductive FetchOutcome
  | ok (text : String) (elapsedMs : Nat)
  | fail (message : String) (elapsedMs : Nat)
  deriving DecidableEq, Repr

/-- Elapsed wall-clock time of the think step (`Date.now() - moveStartTime`). -/
def FetchOutcome.elapsed : FetchOutcome → Nat
  | .ok _ e => e
  | .fail _ e => e

/-- The mutable state of the ply loop (route.ts lines 172–182). -/
structure EngineState (σ K : Type) where
  fen : String
  chess : σ
  fullmove : Nat
  illegalCounts : Color → Nat
  moves : List String
  lastIllegal : Color → Option (String × String)
  lastIllegalMoves : Color → Option IllegalMoveSummary
  clocks : Color → K

/-- Pointwise update of a per-color map. -/
def updFn {α : Type} (f : Color → α) (c : Color) (v : α) : Color → α :=
  fun x => if x = c then v else f x

/-- Snapshot of `illegalCounts` as the `{ white, black }` object. -/
def countsOf {σ K : Type} (st : EngineState σ K) : Counts :=
  ⟨st.illegalCounts .white, st.illegalCounts .black⟩

/-- `{ whiteMs: clocks.white, blackMs: clocks.black }`. -/
def clockSnap {σ K : Type} (st : EngineState σ K) : MatchClocks K :=
  ⟨st.clocks .white, st.clocks .black⟩

/-- `isBullet ? { whiteMs, blackMs } : undefined`. -/
def optClocks {σ K : Type} (isBullet : Bool) (st : EngineState σ K) :
    Option (MatchClocks K) :=
  if isBullet then some (clockSnap st) else none

/-- The `lastIllegalMoves` record as passed to `buildResult`. -/
def pairOf {σ K : Type} (st : EngineState σ K) : IllegalPair :=
  ⟨st.lastIllegalMoves .white, st.lastIllegalMoves .black⟩

/-- The color strings of the route. -/
def colorName : Color → String
  | .white => "white"
  | .black => "black"

/-- JavaScript `Array.prototype.join(" ")` (`moves.join(" ")`). -/
def joinSpace : List String → String
  | [] => ""
  | [s] => s
  | s :: rest => s ++ " " ++ joinSpace rest

/-- buildResult (route.ts lines 112–132). -/
def buildResult {σ K : Type} (R : RulesLib σ) (winner : Winner)
    (reason : MatchReason) (moves : List String) (illegalCounts : Counts)
    (chess : σ) (clocks : Option (MatchClocks K))
    (lastIllegalMoves : Option IllegalPair) : MatchResult K :=
  { winner := winner
    reason := reason
    moves := moves
    pgn := if R.historyNonempty chess then R.pgn chess else joinSpace moves
    illegalCounts := illegalCounts
    clocks := clocks
    finalFen := R.fen chess
    lastIllegalMoves := lastIllegalMoves }

/-- The per-move timeout shown to the model call (route.ts lines 214–216):
`isBullet ? Math.max(500, Math.min(MOVE_TIMEOUT_MS, clocks[activeColor] ||
MOVE_TIMEOUT_MS)) : MOVE_TIMEOUT_MS` (a zero clock is falsy). -/
def perMoveTimeout {K : Type} [LinearOrderedRing K] (isBullet : Bool)
    (mtMs clockMs : K) : K :=
  if isBullet then max 500 (min mtMs (if clockMs = 0 then mtMs else clockMs))
  else mtMs

/-- `activeColor = chess.turn() === "w" ? "white" : "black"`. -/
def activeColorOf {σ K : Type} (R : RulesLib σ) (st : EngineState σ K) : Color :=
  if R.turn st.chess = PieceColor.w then .white else .black

/-- The bullet clock charge (route.ts lines 225 / 302):
`clocks[activeColor] = Math.max(0, clocks[activeColor] - moveTime)`. -/
def chargeClock {σ K : Type} [LinearOrderedRing K] (isBullet : Bool)
    (st : EngineState σ K) (ac : Color) (elapsed : Nat) : EngineState σ K :=
  if isBullet then
    { st with clocks := updFn st.clocks ac (max 0 (st.clocks ac - (elapsed : K))) }
  else st

/-- Flag-fall termination (route.ts lines 226–238 and 303–315, identical):
status event, then the end event with reason "timeout" and winner =
opponent; `buildResult` is called without `lastIllegalMoves` here. -/
def flagEnd {σ K : Type} (R : RulesLib σ) (st : EngineState σ K) (ac : Color)
    (elapsed : Nat) : List (MatchStreamEvent K) × Option (EngineState σ K) :=
  let snap := clockSnap st
  let result : MatchResult K :=
    buildResult R ac.other.toWinner .timeout st.moves (countsOf st) st.chess
      (some snap) none
  ([.status (colorName ac ++ " flagged on time (" ++ Nat.repr elapsed ++ "ms used)")
      (some (countsOf st)) (some snap) none,
    .endEvent result], none)

/-- `startsWith hay pat`: `pat` is an initial segment of `hay`. -/
def startsWith : List Char → List Char → Bool
  | _, [] => true
  | [], _ :: _ => false
  | c :: cs, p :: ps => c = p && startsWith cs ps

/-- JavaScript `String.prototype.includes` on character lists. -/
def containsSeq : List Char → List Char → Bool
  | [], pat => pat.isEmpty
  | c :: rest, pat => startsWith (c :: rest) pat || containsSeq rest pat

/-- JavaScript `parseInt(s, 10)` restricted to the usage on FEN move-counter
fields: the value of the leading run of digits, `none` for NaN. -/
def jsParseIntNat (s : String) : Option Nat :=
  let ds := s.toList.takeWhile Char.isDigit
  if ds = [] then none
  else some (ds.foldl (fun acc c => 10 * acc + (c.toNat - 48)) 0)

/-- `fullmove = parseInt(fen.split(" ")[5], 10) || fullmove` (route.ts
lines 449 / 490): both NaN and 0 are falsy and keep the previous value. -/
def nextFullmoveFrom (fen : String) (fallback : Nat) : Nat :=
  match (jsSplitSpace fen)[5]? with
  | none => fallback
  | some s =>
      match jsParseIntNat s with
      | none => fallback
      | some 0 => fallback
      | some k => k

/-- The rejection-reason diagnosis of route.ts lines 372–393. -/
def diagnoseReason {σ : Type} (R : RulesLib σ) (chess : σ) (ac : Color)
    (cleaned : List Char) : String :=
  match parseUciMove cleaned.asString with
  | none => "Could not parse move text"
  | some u =>
      match R.pieceAt chess u.fromSq with
      | none => "No piece on " ++ u.fromSq.asString
      | some piece =>
          if piece.pcolor ≠ R.turn chess then
            "Piece on " ++ u.fromSq.asString ++ " is not " ++ colorName ac
          else if (R.legalMoves chess).any (fun m =>
              m.fromS == u.fromSq.asString && m.toS == u.toSq.asString &&
              (u.promotion.isNone || m.promotion == u.promotion.map Char.toString)) then
            "Illegal move in current position"
          else "Move violates chess rules (blocked/check/etc.)"

/-- The illegal-move branch of the ply loop (route.ts lines 370–484): bump
the strike counter, remember the rejection, emit the status event; in the
chaos variant additionally execute the move literally when it parses (and
forfeit if the resulting position does not re-parse); in strict/bullet
forfeit at 3 strikes; otherwise continue with the same side to move. -/
def stepIllegal {σ K : Type} [LinearOrderedRing K] (R : RulesLib σ)
    (mode : MatchMode) (ply : Nat) (st : EngineState σ K) (ac : Color)
    (rawTrimmed cleaned : List Char) (moveTime : Nat) :
    List (MatchStreamEvent K) × Option (EngineState σ K) :=
  let isBullet := mode = MatchMode.bullet
  let n := st.illegalCounts ac + 1
  let reason := diagnoseReason R st.chess ac cleaned
  let summary : IllegalMoveSummary :=
    ⟨ac, if rawTrimmed = [] then "(empty move)" else rawTrimmed.asString,
     reason, n, ply⟩
  let st1 : EngineState σ K :=
    { st with
      illegalCounts := updFn st.illegalCounts ac n
      lastIllegal := updFn st.lastIllegal ac (some (rawTrimmed.asString, reason))
      lastIllegalMoves := updFn st.lastIllegalMoves ac (some summary) }
  let statusEv : MatchStreamEvent K :=
    .status (colorName ac ++ " played illegal move " ++
        (if cleaned = [] then "empty" else cleaned.asString) ++ ": " ++ reason ++
        " (" ++ Nat.repr n ++ " strikes)")
      (some (countsOf st1)) (optClocks isBullet st1) (some summary)
  if mode = MatchMode.chaos then
    -- the strict/bullet strike check below the chaos block can never fire here
    match parseUciMove cleaned.asString with
    | some u =>
        let chaos := applyChaosMove st1.fen u (R.turn st1.chess) st1.fullmove
        match R.fromFen chaos.fen with
        | none =>
            ([statusEv,
              .status "Chaos move produced invalid board: invalid FEN"
                (some (countsOf st1)) (optClocks isBullet st1) none,
              .endEvent (buildResult R ac.other.toWinner .illegal st1.moves
                (countsOf st1) st1.chess (optClocks isBullet st1)
                (some (pairOf st1)))], none)
        | some chess2 =>
            let st2 : EngineState σ K :=
              { st1 with
                fen := chaos.fen
                chess := chess2
                fullmove := nextFullmoveFrom chaos.fen st1.fullmove
                moves := st1.moves ++ [chaos.san] }
            ([statusEv,
              .move chaos.san chaos.fen (some chaos.san)
                (some (st2.moves.length / 2 + 1)) ply ac (countsOf st2)
                (optClocks isBullet st2)
                (some "Chaos move executed despite illegality") moveTime],
             some st2)
    | none => ([statusEv], some st1)
  else
    if (mode = MatchMode.strict ∨ mode = MatchMode.bullet) ∧
        3 ≤ st1.illegalCounts ac then
      ([statusEv,
        .endEvent (buildResult R ac.other.toWinner .illegal st1.moves
          (countsOf st1) st1.chess (optClocks isBullet st1)
          (some (pairOf st1)))], none)
    else ([statusEv], some st1)

/-- The accepted-move branch of the ply loop (route.ts lines 486–576): push
the normalized UCI token, refresh the position, reset the mover's strikes,
clear its last-illegal memory, emit the move event, then check the terminal
conditions in their fixed order. -/
def stepLegal {σ K : Type} [LinearOrderedRing K] (R : RulesLib σ)
    (mode : MatchMode) (ply : Nat) (st : EngineState σ K) (ac : Color)
    (mr : MoveRes) (chess2 : σ) (moveTime : Nat) :
    List (MatchStreamEvent K) × Option (EngineState σ K) :=
  let isBullet := mode = MatchMode.bullet
  let moveUci := mr.fromS ++ mr.toS ++ mr.promotion.getD ""
  let displayMoveNum := st.moves.length / 2 + 1
  let fen2 := R.fen chess2
  let st1 : EngineState σ K :=
    { st with
      moves := st.moves ++ [moveUci]
      fen := fen2
      chess := chess2
      fullmove := nextFullmoveFrom fen2 st.fullmove
      illegalCounts := updFn st.illegalCounts ac 0
      lastIllegal := updFn st.lastIllegal ac none }
  let moveEv : MatchStreamEvent K :=
    .move moveUci fen2 (some mr.san) (some displayMoveNum) ply ac (countsOf st1)
      (optClocks isBullet st1) none moveTime
  if R.isCheckmate chess2 then
    ([moveEv, .endEvent (buildResult R ac.toWinner .checkmate st1.moves
      (countsOf st1) chess2 (optClocks isBullet st1) (some (pairOf st1)))], none)
  else if R.isStalemate chess2 then
    ([moveEv, .endEvent (buildResult R .draw .stalemate st1.moves
      (countsOf st1) chess2 (optClocks isBullet st1) (some (pairOf st1)))], none)
  else if R.isThreefoldRepetition chess2 then
    ([moveEv, .endEvent (buildResult R .draw .threefold st1.moves
      (countsOf st1) chess2 (optClocks isBullet st1) (some (pairOf st1)))], none)
  else if R.isInsufficientMaterial chess2 then
    ([moveEv, .endEvent (buildResult R .draw .insufficient st1.moves
      (countsOf st1) chess2 (optClocks isBullet st1) (some (pairOf st1)))], none)
  else if R.isDraw chess2 then
    ([moveEv, .endEvent (buildResult R .draw .fiftyMove st1.moves
      (countsOf st1) chess2 (optClocks isBullet st1) (some (pairOf st1)))], none)
  else ([moveEv], some st1)

/-- The failed-call branch of the ply loop (route.ts lines 223–299): charge
the clock (bullet), flag-fall if exhausted, count an empty response as a
strike (with the strict/bullet forfeit check), and score any other failure
as an immediate loss by timeout. -/
def stepFail {σ K : Type} [LinearOrderedRing K] (R : RulesLib σ)
    (mode : MatchMode) (ply : Nat) (st : EngineState σ K) (ac : Color)
    (message : String) (elapsed : Nat) :
    List (MatchStreamEvent K) × Option (EngineState σ K) :=
  let isBullet := mode = MatchMode.bullet
  let st1 := chargeClock isBullet st ac elapsed
  if isBullet ∧ st1.clocks ac ≤ 0 then flagEnd R st1 ac elapsed
  else if containsSeq (lowerChars message.toList) "empty move".toList then
    let n := st1.illegalCounts ac + 1
    let summary : IllegalMoveSummary :=
      ⟨ac, "(empty)", "Model returned an empty move", n, ply⟩
    let st2 : EngineState σ K :=
      { st1 with
        illegalCounts := updFn st1.illegalCounts ac n
        lastIllegal := updFn st1.lastIllegal ac
          (some ("(empty)", "Model returned an empty move"))
        lastIllegalMoves := updFn st1.lastIllegalMoves ac (some summary) }
    let statusEv : MatchStreamEvent K :=
      .status (colorName ac ++ " produced an empty move (" ++ Nat.repr n ++
          " strikes)")
        (some (countsOf st2)) (optClocks isBullet st2) (some summary)
    if (mode = MatchMode.strict ∨ mode = MatchMode.bullet) ∧
        3 ≤ st2.illegalCounts ac then
      ([statusEv,
        .endEvent (buildResult R ac.other.toWinner .illegal st2.moves
          (countsOf st2) st2.chess (optClocks isBullet st2)
          (some (pairOf st2)))], none)
    else ([statusEv], some st2)
  else
    ([.status (colorName ac ++ " error: " ++
        (if message = "" then "Model call failed or timed out" else message))
        none none none,
      .endEvent (buildResult R ac.other.toWinner .timeout st1.moves
        (countsOf st1) st1.chess (optClocks isBullet st1)
        (some (pairOf st1)))], none)

/-- The successful-call branch of the ply loop (route.ts lines 301–576):
charge the clock (bullet), flag-fall if exhausted, resign on the literal
token, otherwise attempt the move through the rules library. -/
def stepOk {σ K : Type} [LinearOrderedRing K] (R : RulesLib σ)
    (mode : MatchMode) (ply : Nat) (st : EngineState σ K) (ac : Color)
    (text : String) (elapsed : Nat) :
    List (MatchStreamEvent K) × Option (EngineState σ K) :=
  let isBullet := mode = MatchMode.bullet
  let st1 := chargeClock isBullet st ac elapsed
  if isBullet ∧ st1.clocks ac ≤ 0 then flagEnd R st1 ac elapsed
  else
    let rawTrimmed := trimChars text.toList
    let cleaned := lowerChars rawTrimmed
    if cleaned = "resign".toList then
      ([.move "resign" st1.fen none none ply ac (countsOf st1)
          (optClocks isBullet st1) none elapsed,
        .endEvent (buildResult R ac.other.toWinner .resignation st1.moves
          (countsOf st1) st1.chess (optClocks isBullet st1)
          (some (pairOf st1)))], none)
    else
      match R.move st1.chess rawTrimmed.asString with
      | none => stepIllegal R mode ply st1 ac rawTrimmed cleaned elapsed
      | some (mr, chess2) => stepLegal R mode ply st1 ac mr chess2 elapsed

/-- One iteration of the ply loop: determine the acting color, present the
clamped per-move timeout to the model call (the prompt builder is a pure
external collaborator folded into the oracle), and dispatch on the call's
outcome.  Returns the events emitted by the iteration and `some` of the next
state (`continue`) or `none` (the match ended and the stream was closed). -/
def stepPly {σ K : Type} [LinearOrderedRing K] (R : RulesLib σ)
    (mode : MatchMode) (mtMs : K) (oracle : Nat → K → FetchOutcome) (ply : Nat)
    (st : EngineState σ K) :
    List (MatchStreamEvent K) × Option (EngineState σ K) :=
  let ac := activeColorOf R st
  match oracle ply (perMoveTimeout (mode = MatchMode.bullet) mtMs (st.clocks ac)) with
  | .fail message elapsed => stepFail R mode ply st ac message elapsed
  | .ok text elapsed => stepOk R mode ply st ac text elapsed

/-- `const MAX_PLY = 400`. -/
def MAX_PLY : Nat := 400

/-- The `for (let ply = 0; ply < MAX_PLY; ply++)` loop, with the max-move
draw emitted when the fuel runs out (route.ts lines 579–588). -/
def loopPlies {σ K : Type} [LinearOrderedRing K] (R : RulesLib σ)
    (mode : MatchMode) (mtMs : K) (oracle : Nat → K → FetchOutcome) :
    Nat → Nat → EngineState σ K → List (MatchStreamEvent K)
  | 0, _, st =>
      [.endEvent (buildResult R .draw .maxMove st.moves (countsOf st) st.chess
        (optClocks (mode = MatchMode.bullet) st) (some (pairOf st)))]
  | fuel + 1, ply, st =>
      match stepPly R mode mtMs oracle ply st with
      | (evs, none) => evs
      | (evs, some st2) => evs ++ loopPlies R mode mtMs oracle fuel (ply + 1) st2

/-- The initial loop state (route.ts lines 172–182).  `chess` is
`new Chess(new Chess().fen())`, the same state as `new Chess()` by the
determinism of the rules library. -/
def initState {σ K : Type} (R : RulesLib σ) (initialClock : K) :
    EngineState σ K :=
  { fen := R.fen R.init
    chess := R.init
    fullmove := 1
    illegalCounts := fun _ => 0
    moves := []
    lastIllegal := fun _ => none
    lastIllegalMoves := fun _ => none
    clocks := fun _ => initialClock }

/-- The whole event stream of one match: the "Match starting" status event
followed by the ply loop (route.ts lines 184–588). -/
def runMatch {σ K : Type} [LinearOrderedRing K] (R : RulesLib σ)
    (mode : MatchMode) (mtMs : K) (initialClock : K)
    (oracle : Nat → K → FetchOutcome) : List (MatchStreamEvent K) :=
  let st0 : EngineState σ K := initState R initialClock
  .status "Match starting" none (optClocks (mode = MatchMode.bullet) st0) none ::
    loopPlies R mode mtMs oracle MAX_PLY 0 st0

/-- A JavaScript number as relevant to `Number(clockMinutes ?? 3)`: finite,
or not finite (NaN / ±Infinity). -/
inductive JsNumber
  | finite (q : ℚ)
  | nan
  deriving DecidableEq

/-- Lines 166–167 of route.ts: a missing `clockMinutes` defaults to 3, and a
non-finite one is replaced by 3. -/
def safeClockMinutes : Option JsNumber → ℚ
  | none => 3
  | some (.finite q) => q
  | some .nan => 3

/-- Line 168 of route.ts: `isBullet ? Math.min(3, Math.max(1,
safeClockMinutes)) * 60_000 : 0`. -/
def initialClockMs (mode : MatchMode) (clockMinutes : Option JsNumber) : ℚ :=
  if mode = MatchMode.bullet then
    min 3 (max 1 (safeClockMinutes clockMinutes)) * 60000
  else 0

end AIChess

namespace AIChess

/-! ## C1: exactly one end event, and it is last -/

/-- Tag test for the end event. -/
def isEndEv {K : Type} : MatchStreamEvent K → Bool
  | .endEvent _ => true
  | _ => false

@[simp] theorem isEndEv_status {K : Type} (m i c im) :
    isEndEv (MatchStreamEvent.status (K := K) m i c im) = false := rfl

@[simp] theorem isEndEv_move {K : Type} (mv f s d p a i c n t) :
    isEndEv (MatchStreamEvent.move (K := K) mv f s d p a i c n t) = false := rfl

@[simp] theorem isEndEv_endEvent {K : Type} (r : MatchResult K) :
    isEndEv (MatchStreamEvent.endEvent r) = true := rfl

/-- Shape of one loop iteration's output: a continuing iteration emits no
end event, and a terminating one emits exactly one end event, last. -/
def StepShape {σ K : Type}
    (out : List (MatchStreamEvent K) × Option (EngineState σ K)) : Prop :=
  match out with
  | (evs, some _) => evs.countP isEndEv = 0
  | (evs, none) => ∃ evs0 r, evs = evs0 ++ [MatchStreamEvent.endEvent r] ∧
      evs0.countP isEndEv = 0

theorem stepShape_cont {σ K : Type} {evs : List (MatchStreamEvent K)}
    {st : EngineState σ K} (h : evs.countP isEndEv = 0) :
    StepShape (evs, some st) := h

theorem stepShape_end1 {σ K : Type} (a : MatchStreamEvent K) (r : MatchResult K)
    (h : isEndEv a = false) : StepShape (σ := σ) ([a, .endEvent r], none) :=
  ⟨[a], r, rfl, by simp [h]⟩

theorem stepShape_end2 {σ K : Type} (a b : MatchStreamEvent K)
    (r : MatchResult K) (ha : isEndEv a = false) (hb : isEndEv b = false) :
    StepShape (σ := σ) ([a, b, .endEvent r], none) :=
  ⟨[a, b], r, rfl, by simp [ha, hb]⟩

theorem flagEnd_shape {σ K : Type} (R : RulesLib σ) (st : EngineState σ K)
    (ac : Color) (e : Nat) : StepShape (flagEnd R st ac e) := by
  unfold flagEnd
  dsimp only
  exact stepShape_end1 _ _ (by simp)

theorem stepLegal_shape {σ K : Type} [LinearOrderedRing K] (R : RulesLib σ)
    (mode : MatchMode) (ply : Nat) (st : EngineState σ K) (ac : Color)
    (mr : MoveRes) (chess2 : σ) (mt : Nat) :
    StepShape (stepLegal R mode ply st ac mr chess2 mt) := by
  unfold stepLegal
  dsimp only
  split_ifs <;> first
    | exact stepShape_end1 _ _ (by simp)
    | exact stepShape_cont (by simp)

theorem stepIllegal_shape {σ K : Type} [LinearOrderedRing K] (R : RulesLib σ)
    (mode : MatchMode) (ply : Nat) (st : EngineState σ K) (ac : Color)
    (rawTrimmed cleaned : List Char) (mt : Nat) :
    StepShape (stepIllegal R mode ply st ac rawTrimmed cleaned mt) := by
  unfold stepIllegal
  dsimp only
  split
  · split
    · split
      · exact stepShape_end2 _ _ _ (by simp) (by simp)
      · exact stepShape_cont (by simp)
    · exact stepShape_cont (by simp)
  · split
    · exact stepShape_end1 _ _ rfl
    · exact stepShape_cont (by simp)

theorem stepFail_shape {σ K : Type} [LinearOrderedRing K] (R : RulesLib σ)
    (mode : MatchMode) (ply : Nat) (st : EngineState σ K) (ac : Color)
    (message : String) (e : Nat) :
    StepShape (stepFail R mode ply st ac message e) := by
  unfold stepFail
  dsimp only
  split_ifs
  · exact flagEnd_shape _ _ _ _
  · exact stepShape_end1 _ _ (by simp)
  · exact stepShape_cont (by simp)
  · exact stepShape_end1 _ _ (by simp)
  · exact stepShape_end1 _ _ (by simp)

theorem stepOk_shape {σ K : Type} [LinearOrderedRing K] (R : RulesLib σ)
    (mode : MatchMode) (ply : Nat) (st : EngineState σ K) (ac : Color)
    (text : String) (e : Nat) :
    StepShape (stepOk R mode ply st ac text e) := by
  unfold stepOk
  dsimp only
  split_ifs
  · exact flagEnd_shape _ _ _ _
  · exact stepShape_end1 _ _ (by simp)
  · split
    · exact stepIllegal_shape _ _ _ _ _ _ _ _
    · exact stepLegal_shape _ _ _ _ _ _ _ _

theorem stepPly_shape {σ K : Type} [LinearOrderedRing K] (R : RulesLib σ)
    (mode : MatchMode) (mtMs : K) (oracle : Nat → K → FetchOutcome)
    (ply : Nat) (st : EngineState σ K) :
    StepShape (stepPly R mode mtMs oracle ply st) := by
  unfold stepPly
  dsimp only
  split
  · exact stepFail_shape _ _ _ _ _ _ _
  · exact stepOk_shape _ _ _ _ _ _ _

theorem loopPlies_end_spec {σ K : Type} [LinearOrderedRing K] (R : RulesLib σ)
    (mode : MatchMode) (mtMs : K) (oracle : Nat → K → FetchOutcome) :
    ∀ (fuel ply : Nat) (st : EngineState σ K),
      (loopPlies R mode mtMs oracle fuel ply st).countP isEndEv = 1 ∧
      ∃ r, (loopPlies R mode mtMs oracle fuel ply st).getLast? =
        some (.endEvent r) := by
  intro fuel
  induction fuel with
  | zero =>
    intro ply st
    exact ⟨by simp [loopPlies], ⟨_, rfl⟩⟩
  | succ f ih =>
    intro ply st
    have hshape := stepPly_shape R mode mtMs oracle ply st
    rcases hout : stepPly R mode mtMs oracle ply st with ⟨evs, ost⟩
    rw [hout] at hshape
    cases ost with
    | none =>
      obtain ⟨evs0, r, rfl, hcount⟩ := hshape
      constructor
      · simp only [loopPlies, hout]
        simp [List.countP_append, hcount]
      · refine ⟨r, ?_⟩
        simp only [loopPlies, hout]
        simp
    | some st2 =>
      have hcount1 : evs.countP isEndEv = 0 := hshape
      obtain ⟨r, hlast⟩ := (ih (ply + 1) st2).2
      constructor
      · simp only [loopPlies, hout]
        rw [List.countP_append, hcount1, (ih (ply + 1) st2).1]
      · refine ⟨r, ?_⟩
        simp only [loopPlies, hout]
        rw [List.getLast?_append, hlast]
        rfl

end AIChess

namespace AIChess

theorem getLast?_cons_of_some {α : Type} (a : α) {l : List α} {r : α}
    (h : l.getLast? = some r) : (a :: l).getLast? = some r := by
  cases l with
  | nil => simp at h
  | cons b t => rw [List.getLast?_cons_cons]; exact h

/-- C1: for every match — any rules-library instantiation, any model-call
behavior, any variant — the emitted event stream is a finite list containing
exactly one end event, and that end event is the last element: every path of
the ply loop either continues or emits one end event and closes the stream,
and no status or move event follows the end event. -/
theorem runMatch_exactly_one_end_and_it_is_last (σ K : Type)
    [LinearOrderedRing K] (R : RulesLib σ) (mode : MatchMode)
    (mtMs initialClock : K) (oracle : Nat → K → FetchOutcome) :
    (runMatch R mode mtMs initialClock oracle).countP isEndEv = 1 ∧
    ∃ r, (runMatch R mode mtMs initialClock oracle).getLast? =
      some (.endEvent r) := by
  have h := loopPlies_end_spec R mode mtMs oracle MAX_PLY 0
    (initState R initialClock)
  constructor
  · unfold runMatch
    dsimp only
    rw [List.countP_cons, h.1]
    simp
  · obtain ⟨r, hlast⟩ := h.2
    exact ⟨r, getLast?_cons_of_some _ hlast⟩

/-! ## Strike counters: C2 and C6 -/

@[simp] theorem updFn_self {α : Type} (f : Color → α) (c : Color) (v : α) :
    updFn f c v c = v := by simp [updFn]

theorem updFn_ne {α : Type} (f : Color → α) (c : Color) (v : α) {d : Color}
    (h : d ≠ c) : updFn f c v d = f d := by simp [updFn, h]

@[simp] theorem chargeClock_chess {σ K : Type} [LinearOrderedRing K]
    (b : Bool) (st : EngineState σ K) (ac : Color) (e : Nat) :
    (chargeClock b st ac e).chess = st.chess := by
  unfold chargeClock; split <;> rfl

@[simp] theorem chargeClock_illegalCounts {σ K : Type} [LinearOrderedRing K]
    (b : Bool) (st : EngineState σ K) (ac : Color) (e : Nat) :
    (chargeClock b st ac e).illegalCounts = st.illegalCounts := by
  unfold chargeClock; split <;> rfl

@[simp] theorem chargeClock_moves {σ K : Type} [LinearOrderedRing K]
    (b : Bool) (st : EngineState σ K) (ac : Color) (e : Nat) :
    (chargeClock b st ac e).moves = st.moves := by
  unfold chargeClock; split <;> rfl

@[simp] theorem chargeClock_fen {σ K : Type} [LinearOrderedRing K]
    (b : Bool) (st : EngineState σ K) (ac : Color) (e : Nat) :
    (chargeClock b st ac e).fen = st.fen := by
  unfold chargeClock; split <;> rfl

@[simp] theorem chargeClock_fullmove {σ K : Type} [LinearOrderedRing K]
    (b : Bool) (st : EngineState σ K) (ac : Color) (e : Nat) :
    (chargeClock b st ac e).fullmove = st.fullmove := by
  unfold chargeClock; split <;> rfl

@[simp] theorem chargeClock_lastIllegal {σ K : Type} [LinearOrderedRing K]
    (b : Bool) (st : EngineState σ K) (ac : Color) (e : Nat) :
    (chargeClock b st ac e).lastIllegal = st.lastIllegal := by
  unfold chargeClock; split <;> rfl

@[simp] theorem chargeClock_lastIllegalMoves {σ K : Type} [LinearOrderedRing K]
    (b : Bool) (st : EngineState σ K) (ac : Color) (e : Nat) :
    (chargeClock b st ac e).lastIllegalMoves = st.lastIllegalMoves := by
  unfold chargeClock; split <;> rfl

theorem Color.other_ne (c : Color) : c.other ≠ c := by cases c <;> decide

theorem stepIllegal_continue_counts {σ K : Type} [LinearOrderedRing K]
    (R : RulesLib σ) (mode : MatchMode) (ply : Nat) (st : EngineState σ K)
    (ac : Color) (rawTrimmed cleaned : List Char) (mt : Nat)
    (evs : List (MatchStreamEvent K)) (st' : EngineState σ K)
    (h : stepIllegal R mode ply st ac rawTrimmed cleaned mt = (evs, some st')) :
    st'.illegalCounts ac = st.illegalCounts ac + 1 ∧
    (∀ c, c ≠ ac → st'.illegalCounts c = st.illegalCounts c) ∧
    ((mode = MatchMode.strict ∨ mode = MatchMode.bullet) →
      st'.illegalCounts ac < 3) := by
  unfold stepIllegal at h
  dsimp only at h
  split at h
  · rename_i hchaos
    split at h
    · split at h
      · simp at h
      · simp only [Prod.mk.injEq, Option.some.injEq] at h
        obtain ⟨-, h2⟩ := h
        subst h2
        refine ⟨by simp, fun c hc => by simp [updFn_ne _ _ _ hc], ?_⟩
        intro hsb
        rcases hsb with hsb | hsb <;> rw [hsb] at hchaos <;> cases hchaos
    · simp only [Prod.mk.injEq, Option.some.injEq] at h
      obtain ⟨-, h2⟩ := h
      subst h2
      refine ⟨by simp, fun c hc => by simp [updFn_ne _ _ _ hc], ?_⟩
      intro hsb
      rcases hsb with hsb | hsb <;> rw [hsb] at hchaos <;> cases hchaos
  · split at h
    · simp at h
    · rename_i hstrike
      simp only [Prod.mk.injEq, Option.some.injEq] at h
      obtain ⟨-, h2⟩ := h
      subst h2
      refine ⟨by simp, fun c hc => by simp [updFn_ne _ _ _ hc], ?_⟩
      intro hsb
      rw [not_and] at hstrike
      have := hstrike hsb
      simp only [updFn_self] at this ⊢
      omega

theorem stepLegal_continue_counts {σ K : Type} [LinearOrderedRing K]
    (R : RulesLib σ) (mode : MatchMode) (ply : Nat) (st : EngineState σ K)
    (ac : Color) (mr : MoveRes) (chess2 : σ) (mt : Nat)
    (evs : List (MatchStreamEvent K)) (st' : EngineState σ K)
    (h : stepLegal R mode ply st ac mr chess2 mt = (evs, some st')) :
    st'.illegalCounts ac = 0 ∧ st'.lastIllegal ac = none ∧
    (∀ c, c ≠ ac → st'.illegalCounts c = st.illegalCounts c) := by
  unfold stepLegal at h
  dsimp only at h
  split_ifs at h <;> simp only [Prod.mk.injEq, Option.some.injEq,
    reduceCtorEq, and_false] at h
  obtain ⟨-, h2⟩ := h
  subst h2
  exact ⟨by simp, by simp, fun c hc => by simp [updFn_ne _ _ _ hc]⟩

theorem stepFail_continue_counts {σ K : Type} [LinearOrderedRing K]
    (R : RulesLib σ) (mode : MatchMode) (ply : Nat) (st : EngineState σ K)
    (ac : Color) (message : String) (e : Nat)
    (evs : List (MatchStreamEvent K)) (st' : EngineState σ K)
    (h : stepFail R mode ply st ac message e = (evs, some st')) :
    st'.illegalCounts ac = st.illegalCounts ac + 1 ∧
    (∀ c, c ≠ ac → st'.illegalCounts c = st.illegalCounts c) ∧
    ((mode = MatchMode.strict ∨ mode = MatchMode.bullet) →
      st'.illegalCounts ac < 3) := by
  unfold stepFail at h
  dsimp only at h
  split_ifs at h with hflag hempty hstrike hmsg
  · unfold flagEnd at h; dsimp only at h; simp at h
  · simp at h
  · simp only [Prod.mk.injEq, Option.some.injEq] at h
    obtain ⟨-, h2'⟩ := h
    subst h2'
    refine ⟨by simp, fun c hc => by simp [updFn_ne _ _ _ hc], ?_⟩
    intro hsb
    rw [not_and] at hstrike
    have hlt := hstrike hsb
    simp only [updFn_self, chargeClock_illegalCounts] at hlt ⊢
    omega
  · simp at h
  · simp at h

/-- Whether the ply's outcome is a move the rules library accepts (the
condition under which route.ts reaches lines 486–492): the call returned
text, the text is not the resignation token, and `chess.move` accepts it. -/
def stepAccepted {σ K : Type} [LinearOrderedRing K] (R : RulesLib σ)
    (mode : MatchMode) (mtMs : K) (oracle : Nat → K → FetchOutcome)
    (ply : Nat) (st : EngineState σ K) : Bool :=
  match oracle ply (perMoveTimeout (mode = MatchMode.bullet) mtMs
      (st.clocks (activeColorOf R st))) with
  | .fail _ _ => false
  | .ok text _ =>
      (!(lowerChars (trimChars text.toList) == "resign".toList)) &&
      (R.move st.chess (trimChars text.toList).asString).isSome

/-- Master lemma on strike counters over one continuing iteration: the
non-acting color's counter is untouched; the acting color's counter is reset
to 0 (with its last-illegal memory cleared) exactly on an accepted legal
move, and is otherwise incremented by exactly 1 — staying below 3 in the
strict and bullet variants, whose 3-strike check would have ended the
iteration. -/
theorem stepPly_continue_counts {σ K : Type} [LinearOrderedRing K]
    (R : RulesLib σ) (mode : MatchMode) (mtMs : K)
    (oracle : Nat → K → FetchOutcome) (ply : Nat) (st : EngineState σ K)
    (evs : List (MatchStreamEvent K)) (st' : EngineState σ K)
    (h : stepPly R mode mtMs oracle ply st = (evs, some st')) :
    (∀ c, c ≠ activeColorOf R st → st'.illegalCounts c = st.illegalCounts c) ∧
    (if stepAccepted R mode mtMs oracle ply st then
        st'.illegalCounts (activeColorOf R st) = 0 ∧
        st'.lastIllegal (activeColorOf R st) = none
      else
        st'.illegalCounts (activeColorOf R st) =
          st.illegalCounts (activeColorOf R st) + 1 ∧
        ((mode = MatchMode.strict ∨ mode = MatchMode.bullet) →
          st'.illegalCounts (activeColorOf R st) < 3)) := by
  unfold stepPly at h
  dsimp only at h
  unfold stepAccepted
  split at h
  · rename_i message elapsed heq
    obtain ⟨hinc, hothers, hlt⟩ := stepFail_continue_counts R mode ply st
      (activeColorOf R st) message elapsed evs st' h
    refine ⟨hothers, ?_⟩
    rw [if_neg (by simp)]
    exact ⟨hinc, hlt⟩
  · rename_i text elapsed heq
    unfold stepOk at h
    dsimp only at h
    split_ifs at h with hflag hresign
    · unfold flagEnd at h; dsimp only at h; simp at h
    · simp at h
    · have hres : (lowerChars (trimChars text.toList) == "resign".toList) = false :=
        beq_eq_false_iff_ne.mpr hresign
      split at h
      · rename_i hmove
        obtain ⟨hinc, hothers, hlt⟩ := stepIllegal_continue_counts R mode ply
          (chargeClock (mode = MatchMode.bullet) st (activeColorOf R st) elapsed)
          (activeColorOf R st) _ _ elapsed evs st' h
        rw [chargeClock_chess] at hmove
        simp only [chargeClock_illegalCounts] at hinc hothers hlt
        refine ⟨hothers, ?_⟩
        rw [if_neg (by rw [hres, hmove]; simp)]
        exact ⟨hinc, hlt⟩
      · rename_i mr chess2 hmove
        obtain ⟨hzero, hclear, hothers⟩ := stepLegal_continue_counts R mode ply
          (chargeClock (mode = MatchMode.bullet) st (activeColorOf R st) elapsed)
          (activeColorOf R st) mr chess2 elapsed evs st' h
        rw [chargeClock_chess] at hmove
        simp only [chargeClock_illegalCounts] at hothers
        refine ⟨hothers, ?_⟩
        rw [if_pos (by rw [hres, hmove]; rfl)]
        exact ⟨hzero, hclear⟩

/-- C6: over every continuing iteration of every match, the acting color's
strike counter is reset to 0 — together with clearing its last-illegal
memory — exactly when that color produced an accepted legal move, and is
otherwise incremented by exactly 1 on its illegal or empty attempt; the
other color's counter never changes.  Between resets the counter is
therefore monotonically non-decreasing. -/
theorem illegalCounts_reset_on_legal_and_increment_on_illegal
    {σ K : Type} [LinearOrderedRing K] (R : RulesLib σ) (mode : MatchMode)
    (mtMs : K) (oracle : Nat → K → FetchOutcome) (ply : Nat)
    (st : EngineState σ K) (evs : List (MatchStreamEvent K))
    (st' : EngineState σ K)
    (h : stepPly R mode mtMs oracle ply st = (evs, some st')) :
    (∀ c, c ≠ activeColorOf R st → st'.illegalCounts c = st.illegalCounts c) ∧
    (stepAccepted R mode mtMs oracle ply st = true →
      st'.illegalCounts (activeColorOf R st) = 0 ∧
      st'.lastIllegal (activeColorOf R st) = none) ∧
    (stepAccepted R mode mtMs oracle ply st = false →
      st'.illegalCounts (activeColorOf R st) =
        st.illegalCounts (activeColorOf R st) + 1) := by
  obtain ⟨hothers, hcond⟩ := stepPly_continue_counts R mode mtMs oracle ply st
    evs st' h
  refine ⟨hothers, ?_, ?_⟩
  · intro hacc
    rw [if_pos hacc] at hcond
    exact hcond
  · intro hacc
    rw [hacc] at hcond
    simp only [Bool.false_eq_true, if_false] at hcond
    exact hcond.1

/-- The result carried by the last event of a stream, when that event is an
end event. -/
def lastResult {K : Type} (evs : List (MatchStreamEvent K)) :
    Option (MatchResult K) :=
  match evs.getLast? with
  | some (.endEvent r) => some r
  | _ => none

/-- Modelled from the spec: a rules-library collaborator state for runs in
which every attempted move is rejected, matching chess.js on the only
inputs such runs exercise (§6: attempt-move returns null on illegal; the
scripted token "zzzz" is unparseable and accepted in no position; with no
accepted move the side to move stays white and the position stays the
standard initial one). -/
def stubRules : RulesLib Unit :=
  { init := ()
    fromFen := fun _ => some ()
    turn := fun _ => .w
    move := fun _ _ => none
    fen := fun _ => startFen
    pgn := fun _ => ""
    historyNonempty := fun _ => false
    pieceAt := fun _ _ => none
    legalMoves := fun _ => []
    isCheckmate := fun _ => false
    isStalemate := fun _ => false
    isThreefoldRepetition := fun _ => false
    isInsufficientMaterial := fun _ => false
    isDraw := fun _ => false }

/-- The scripted agent of the spec's test: it always answers "zzzz". -/
def zzzzOracle : Nat → ℤ → FetchOutcome := fun _ _ => .ok "zzzz" 0

/-- C2: in the strict and timed (bullet) variants a strike counter reaching
3 terminates the match at once — contrapositively, every continuing
iteration keeps both counters below 3 — and the scripted always-unparseable
agent ("zzzz") ends the match with reason "illegal", winner = black, exactly
3 strikes for white (the side to move at game start), no moves played, and
only 5 events (start, three strike statuses, end), the third strike status
being immediately followed by the end event. -/
theorem strict_bullet_three_strikes_forfeit :
    (∀ (σ K : Type) [_inst : LinearOrderedRing K] (R : RulesLib σ)
        (mode : MatchMode) (mtMs : K) (oracle : Nat → K → FetchOutcome)
        (ply : Nat) (st : EngineState σ K) (evs : List (MatchStreamEvent K))
        (st' : EngineState σ K),
      (mode = MatchMode.strict ∨ mode = MatchMode.bullet) →
      stepPly R mode mtMs oracle ply st = (evs, some st') →
      (∀ c, st.illegalCounts c < 3) → (∀ c, st'.illegalCounts c < 3)) ∧
    ((lastResult (runMatch stubRules .strict (12000 : ℤ) 0 zzzzOracle)).map
        (fun r => (r.reason, r.winner, r.illegalCounts, r.moves)) =
      some (MatchReason.illegal, Winner.black, (⟨3, 0⟩ : Counts), []) ∧
     (runMatch stubRules .strict (12000 : ℤ) 0 zzzzOracle).length = 5) := by
  constructor
  · intro σ K _inst R mode mtMs oracle ply st evs st' hmode hstep hlt c
    obtain ⟨hothers, hcond⟩ := stepPly_continue_counts R mode mtMs oracle ply
      st evs st' hstep
    by_cases hc : c = activeColorOf R st
    · subst hc
      by_cases hacc : stepAccepted R mode mtMs oracle ply st = true
      · rw [if_pos hacc] at hcond
        rw [hcond.1]
        omega
      · rw [if_neg hacc] at hcond
        exact hcond.2 hmode
    · rw [hothers c hc]
      exact hlt c
  · constructor
    · decide
    · decide

/-- Witness for the C2 theorem: the first iteration of the scripted strict
run continues with both counters still below 3 (white has 1 strike). -/
theorem strict_bullet_three_strikes_forfeit_witness :
    ((stepPly stubRules .strict (12000 : ℤ) zzzzOracle 0
        (initState stubRules 0)).2.map
      (fun st => decide (st.illegalCounts Color.white < 3 ∧
        st.illegalCounts Color.black < 3))) = some true := by
  have hne : ((stepPly stubRules .strict (12000 : ℤ) zzzzOracle 0
      (initState stubRules 0)).2).isSome = true := by decide
  rcases hy : (stepPly stubRules .strict (12000 : ℤ) zzzzOracle 0
      (initState stubRules 0)).2 with _ | st1
  · rw [hy] at hne; simp at hne
  · have heq : stepPly stubRules .strict (12000 : ℤ) zzzzOracle 0
        (initState stubRules 0) =
        ((stepPly stubRules .strict (12000 : ℤ) zzzzOracle 0
          (initState stubRules 0)).1, some st1) := by
      rw [← hy]
    have h := strict_bullet_three_strikes_forfeit.1 Unit ℤ stubRules .strict
      12000 zzzzOracle 0 (initState stubRules 0) _ st1 (Or.inl rfl) heq
      (fun c => by cases c <;> decide)
    simp only [Option.map_some']
    congr 1
    rw [decide_eq_true_eq]
    exact ⟨h Color.white, h Color.black⟩

/-- Witness for the C6 theorem: the first iteration of the scripted strict
run is not an accepted move, and white's counter goes from 0 to 1. -/
theorem illegalCounts_reset_on_legal_and_increment_on_illegal_witness :
    ((stepPly stubRules .strict (12000 : ℤ) zzzzOracle 0
        (initState stubRules 0)).2.map
      (fun st => st.illegalCounts Color.white)) = some 1 := by
  have hne : ((stepPly stubRules .strict (12000 : ℤ) zzzzOracle 0
      (initState stubRules 0)).2).isSome = true := by decide
  rcases hy : (stepPly stubRules .strict (12000 : ℤ) zzzzOracle 0
      (initState stubRules 0)).2 with _ | st1
  · rw [hy] at hne; simp at hne
  · have heq : stepPly stubRules .strict (12000 : ℤ) zzzzOracle 0
        (initState stubRules 0) =
        ((stepPly stubRules .strict (12000 : ℤ) zzzzOracle 0
          (initState stubRules 0)).1, some st1) := by
      rw [← hy]
    have h := (illegalCounts_reset_on_legal_and_increment_on_illegal stubRules
      .strict 12000 zzzzOracle 0 (initState stubRules 0) _ st1 heq).2.2
      (by decide)
    have hac : activeColorOf stubRules (initState stubRules (0 : ℤ)) =
        Color.white := by decide
    rw [hac] at h
    have hone : st1.illegalCounts Color.white = 1 := by simpa using h
    simp [hone]

/-! ## C3: clock exhaustion ends the match before the reply is examined -/

theorem clockSnap_get {σ K : Type} (st : EngineState σ K) (c : Color) :
    (clockSnap st).get c = st.clocks c := by cases c <;> rfl

theorem chargeClock_clocks_true {σ K : Type} [LinearOrderedRing K]
    (st : EngineState σ K) (ac : Color) (e : Nat) :
    (chargeClock true st ac e).clocks =
      updFn st.clocks ac (max 0 (st.clocks ac - (e : K))) := by
  unfold chargeClock
  simp

theorem lastResult_concat_end {K : Type} (l : List (MatchStreamEvent K))
    (r : MatchResult K) : lastResult (l ++ [.endEvent r]) = some r := by
  unfold lastResult
  rw [List.getLast?_concat]

theorem flagEnd_timeout_spec {σ K : Type} [LinearOrderedRing K]
    (R : RulesLib σ) (st : EngineState σ K) (ac : Color) (e : Nat)
    (h0 : st.clocks ac = 0) :
    ∃ evs0 r, flagEnd R st ac e = (evs0 ++ [.endEvent r], none) ∧
      r.reason = MatchReason.timeout ∧ r.winner = ac.other.toWinner ∧
      ∃ cl, r.clocks = some cl ∧ cl.get ac = 0 := by
  refine ⟨[MatchStreamEvent.status
      (colorName ac ++ " flagged on time (" ++ Nat.repr e ++ "ms used)")
      (some (countsOf st)) (some (clockSnap st)) none],
    buildResult R ac.other.toWinner MatchReason.timeout st.moves (countsOf st)
      st.chess (some (clockSnap st)) none,
    ?_, rfl, rfl, ⟨clockSnap st, rfl, ?_⟩⟩
  · unfold flagEnd
    rfl
  · rw [clockSnap_get]
    exact h0

/-- C3: in the timed (bullet) variant, whenever the think step's elapsed
time is at least the acting side's remaining clock, the iteration ends
immediately — before the returned text is examined for resignation or
legality, and whether or not the call succeeded (the outcome is universally
quantified) — with reason "timeout", winner = opponent, and the reported
clock of the losing side equal to 0; moreover the `max 0` floor keeps every
clock non-negative across every continuing iteration of every match. -/
theorem timed_clock_exhaustion_times_out :
    (∀ (σ K : Type) [_inst : LinearOrderedRing K] (R : RulesLib σ)
        (mtMs : K) (oracle : Nat → K → FetchOutcome) (ply : Nat)
        (st : EngineState σ K),
      st.clocks (activeColorOf R st) ≤
        ((oracle ply (perMoveTimeout true mtMs
          (st.clocks (activeColorOf R st)))).elapsed : K) →
      ∃ evs0 r, stepPly R MatchMode.bullet mtMs oracle ply st =
          (evs0 ++ [.endEvent r], none) ∧
        r.reason = MatchReason.timeout ∧
        r.winner = (activeColorOf R st).other.toWinner ∧
        ∃ cl, r.clocks = some cl ∧ cl.get (activeColorOf R st) = 0) ∧
    (∀ (σ K : Type) [_inst : LinearOrderedRing K] (R : RulesLib σ)
        (mode : MatchMode) (mtMs : K) (oracle : Nat → K → FetchOutcome)
        (ply : Nat) (st : EngineState σ K) (evs : List (MatchStreamEvent K))
        (st' : EngineState σ K),
      stepPly R mode mtMs oracle ply st = (evs, some st') →
      (∀ c, 0 ≤ st.clocks c) → (∀ c, 0 ≤ st'.clocks c)) := by
  constructor
  · intro σ K _inst R mtMs oracle ply st hel
    have hb : (decide (MatchMode.bullet = MatchMode.bullet)) = true := rfl
    unfold stepPly
    dsimp only
    have hcharge : ∀ e : Nat, st.clocks (activeColorOf R st) ≤ (e : K) →
        (chargeClock (decide (MatchMode.bullet = MatchMode.bullet)) st
          (activeColorOf R st) e).clocks (activeColorOf R st) = 0 := by
      intro e he
      rw [hb, chargeClock_clocks_true, updFn_self]
      exact max_eq_left (sub_nonpos.mpr he)
    split
    · rename_i message elapsed heq
      rw [hb] at heq
      rw [heq] at hel
      have h0 := hcharge elapsed hel
      unfold stepFail
      dsimp only
      rw [if_pos ⟨rfl, le_of_eq h0⟩]
      exact flagEnd_timeout_spec _ _ _ _ h0
    · rename_i text elapsed heq
      rw [hb] at heq
      rw [heq] at hel
      have h0 := hcharge elapsed hel
      unfold stepOk
      dsimp only
      rw [if_pos ⟨rfl, le_of_eq h0⟩]
      exact flagEnd_timeout_spec _ _ _ _ h0
  · intro σ K _inst R mode mtMs oracle ply st evs st' h hpos
    have hcharge : ∀ (b : Bool) (e : Nat) (c : Color),
        0 ≤ (chargeClock b st (activeColorOf R st) e).clocks c := by
      intro b e c
      unfold chargeClock
      cases b with
      | false => exact hpos c
      | true =>
        simp only [if_pos]
        by_cases hc : c = activeColorOf R st
        · subst hc
          rw [updFn_self]
          exact le_max_left _ _
        · rw [updFn_ne _ _ _ hc]
          exact hpos c
    unfold stepPly at h
    dsimp only at h
    split at h
    · rename_i message elapsed heq
      unfold stepFail at h
      dsimp only at h
      split_ifs at h with hflag hempty hstrike hmsg
      · unfold flagEnd at h; dsimp only at h; simp at h
      · simp at h
      · simp only [Prod.mk.injEq, Option.some.injEq] at h
        obtain ⟨-, h2⟩ := h
        subst h2
        exact fun c => hcharge _ elapsed c
      · simp at h
      · simp at h
    · rename_i text elapsed heq
      unfold stepOk at h
      dsimp only at h
      split_ifs at h with hflag hresign
      · unfold flagEnd at h; dsimp only at h; simp at h
      · simp at h
      · split at h
        · rename_i hmove
          unfold stepIllegal at h
          dsimp only at h
          split at h
          · split at h
            · split at h
              · simp at h
              · simp only [Prod.mk.injEq, Option.some.injEq] at h
                obtain ⟨-, h2⟩ := h
                subst h2
                exact fun c => hcharge _ elapsed c
            · simp only [Prod.mk.injEq, Option.some.injEq] at h
              obtain ⟨-, h2⟩ := h
              subst h2
              exact fun c => hcharge _ elapsed c
          · split at h
            · simp at h
            · simp only [Prod.mk.injEq, Option.some.injEq] at h
              obtain ⟨-, h2⟩ := h
              subst h2
              exact fun c => hcharge _ elapsed c
        · rename_i mr chess2 hmove
          unfold stepLegal at h
          dsimp only at h
          split_ifs at h <;> simp only [Prod.mk.injEq, Option.some.injEq,
            reduceCtorEq, and_false] at h
          obtain ⟨-, h2⟩ := h
          subst h2
          exact fun c => hcharge _ elapsed c

/-- Witness for the C3 theorem: a bullet step whose think time (70000ms)
exceeds white's whole clock (60000ms) ends with timeout, winner black,
white's reported clock 0; and the continuing strict step keeps clocks
non-negative. -/
theorem timed_clock_exhaustion_times_out_witness :
    ((lastResult (stepPly stubRules MatchMode.bullet (12000 : ℤ)
        (fun _ _ => .ok "e2e4" 70000) 0 (initState stubRules 60000)).1).map
      (fun r => (r.reason, r.winner, r.clocks.map fun cl => cl.get Color.white)))
      = some (MatchReason.timeout, Winner.black, some (0 : ℤ)) := by
  have h := timed_clock_exhaustion_times_out.1 Unit ℤ stubRules 12000
    (fun _ _ => .ok "e2e4" 70000) 0 (initState stubRules 60000) (by decide)
  obtain ⟨evs0, r, heq, hreason, hwinner, cl, hcl, hget⟩ := h
  have hac : activeColorOf stubRules (initState stubRules (60000 : ℤ)) =
      Color.white := by decide
  rw [heq]
  rw [lastResult_concat_end]
  rw [hac] at hwinner hget
  simp [hreason, hwinner, hcl, hget]
  rfl

/-! ## C4: the per-move timeout clamp -/

/-- Modelled from the spec: a rules-library collaborator over the list of
accepted move tokens, for runs that only need legality bookkeeping (§6) —
any well-formed square-pair token is accepted and appended, the side to move
alternates with the number of accepted moves. -/
def freeRules : RulesLib (List String) :=
  { init := []
    fromFen := fun _ => some []
    turn := fun s => if s.length % 2 = 0 then .w else .b
    move := fun s raw =>
      if (parseUciMove raw).isSome then some (⟨raw, "", none, raw⟩, s ++ [raw])
      else none
    fen := fun s => Nat.repr s.length
    pgn := fun _ => ""
    historyNonempty := fun _ => false
    pieceAt := fun _ _ => none
    legalMoves := fun _ => []
    isCheckmate := fun _ => false
    isStalemate := fun _ => false
    isThreefoldRepetition := fun _ => false
    isInsufficientMaterial := fun _ => false
    isDraw := fun _ => false }

/-- A bullet match in which white spends 59.8 of its 60 seconds on the first
move and black answers instantly. -/
def cxOracle : Nat → ℤ → FetchOutcome
  | 0, _ => .ok "e2e4" 59800
  | 1, _ => .ok "e7e5" 0
  | _, _ => .ok "e2e4" 0

/-- One engine step of the counterexample run, on optional states. -/
def cxStep (n : Nat) (ost : Option (EngineState (List String) ℤ)) :
    Option (EngineState (List String) ℤ) :=
  ost.bind fun st => (stepPly freeRules .bullet 12000 cxOracle n st).2

/-- The state facing white's second move in the counterexample run (initial
clock 60000ms = the 1-minute allotment). -/
def cxSt2 : Option (EngineState (List String) ℤ) :=
  cxStep 1 (cxStep 0 (some (initState freeRules 60000)))

/-- Counterexample to C4 as stated: in this reachable bullet state white has
200ms left, white is to move, and the per-move timeout the code presents to
the model call is 500ms — more than the remaining clock. -/
theorem perMoveTimeout_exceeds_clock_counterexample :
    (cxSt2.map fun st => st.clocks Color.white) = some 200 ∧
    (cxSt2.map fun st => activeColorOf freeRules st) = some Color.white ∧
    perMoveTimeout true (12000 : ℤ) 200 = 500 ∧ ¬ ((500 : ℤ) ≤ 200) :=
  ⟨by decide, by decide, by decide, by decide⟩

/-- C4 (amended): the per-move timeout equals
`max(500, min(MOVE_TIMEOUT_MS, clock || MOVE_TIMEOUT_MS))` in the timed
variant, so it never exceeds `max(500, MOVE_TIMEOUT_MS)`; it never exceeds
the acting side's remaining clock provided that clock is at least the 500ms
floor, and never exceeds MOVE_TIMEOUT_MS provided the ceiling is at least
500ms (the default is 12000); in untimed variants it is MOVE_TIMEOUT_MS. -/
theorem perMoveTimeout_clamp_spec (K : Type) [LinearOrderedRing K] (T c : K) :
    perMoveTimeout false T c = T ∧
    perMoveTimeout true T c ≤ max 500 T ∧
    ((500 : K) ≤ c → perMoveTimeout true T c ≤ c) ∧
    ((500 : K) ≤ T → perMoveTimeout true T c ≤ T) := by
  unfold perMoveTimeout
  refine ⟨by simp, ?_, ?_, ?_⟩
  · rw [if_pos rfl]
    exact max_le (le_max_left _ _)
      (le_trans (min_le_left _ _) (le_max_right _ _))
  · intro h5
    rw [if_pos rfl]
    have hc0 : c ≠ 0 := by
      intro h
      rw [h] at h5
      have h500 : (0 : K) < 500 := by norm_num
      exact h500.not_le h5
    rw [if_neg hc0]
    exact max_le h5 (min_le_right _ _)
  · intro h5
    rw [if_pos rfl]
    exact max_le h5 (min_le_left _ _)

/-- Witness for the amended C4 theorem at a fresh 60-second clock and the
default 12000ms ceiling. -/
theorem perMoveTimeout_clamp_spec_witness :
    perMoveTimeout true (12000 : ℤ) 60000 ≤ 60000 ∧
    perMoveTimeout true (12000 : ℤ) 60000 ≤ 12000 :=
  ⟨(perMoveTimeout_clamp_spec ℤ 12000 60000).2.2.1 (by decide),
   (perMoveTimeout_clamp_spec ℤ 12000 60000).2.2.2 (by decide)⟩

/-! ## C5: the chaos variant has no strike forfeiture and executes parseable
illegal moves literally -/

/-- `stepAccepted` is false whenever the model answers the unparseable
scripted token and the rules library rejects it everywhere. -/
theorem stepAccepted_zzzz {σ K : Type} [LinearOrderedRing K] (R : RulesLib σ)
    (mode : MatchMode) (mtMs : K) (oracle : Nat → K → FetchOutcome)
    (ply : Nat) (st : EngineState σ K)
    (hor : ∀ n t, oracle n t = FetchOutcome.ok "zzzz" 0)
    (hmv : ∀ s, R.move s "zzzz" = none) :
    stepAccepted R mode mtMs oracle ply st = false := by
  unfold stepAccepted
  simp only [hor]
  rw [show (trimChars "zzzz".toList).asString = "zzzz" from rfl]
  rw [hmv]
  simp

/-- In the chaos variant, a ply in which the model answers the scripted
unparseable token always continues with a single status event: the counter
bump never terminates the match. -/
theorem chaos_zzzz_step {σ K : Type} [LinearOrderedRing K] (R : RulesLib σ)
    (mtMs : K) (oracle : Nat → K → FetchOutcome) (ply : Nat)
    (st : EngineState σ K)
    (hor : ∀ n t, oracle n t = FetchOutcome.ok "zzzz" 0)
    (hmv : ∀ s, R.move s "zzzz" = none) :
    ∃ ev st2, stepPly R MatchMode.chaos mtMs oracle ply st = ([ev], some st2) := by
  unfold stepPly
  dsimp only
  simp only [hor]
  unfold stepOk
  dsimp only
  rw [if_neg (by simp)]
  rw [if_neg (by decide)]
  simp only [chargeClock_chess]
  rw [show (trimChars "zzzz".toList).asString = "zzzz" from rfl]
  simp only [hmv]
  unfold stepIllegal
  dsimp only
  rw [if_pos rfl]
  simp only [show parseUciMove (lowerChars (trimChars "zzzz".toList)).asString =
    none from by decide]
  exact ⟨_, _, rfl⟩

/-- Running the chaos loop against the always-"zzzz" agent from any state:
the stream always ends in the max-move draw, with the white counter (the
only mover, under a white-to-move-forever library) increased by exactly the
number of plies played — far beyond 3, with no forfeiture. -/
theorem chaos_zzzz_loop {σ K : Type} [LinearOrderedRing K] (R : RulesLib σ)
    (mtMs : K) (oracle : Nat → K → FetchOutcome)
    (hor : ∀ n t, oracle n t = FetchOutcome.ok "zzzz" 0)
    (hmv : ∀ s, R.move s "zzzz" = none)
    (hturn : ∀ s, R.turn s = PieceColor.w) :
    ∀ (fuel ply : Nat) (st : EngineState σ K),
      ∃ r, (loopPlies R MatchMode.chaos mtMs oracle fuel ply st).getLast? =
          some (.endEvent r) ∧
        r.reason = MatchReason.maxMove ∧ r.winner = Winner.draw ∧
        r.illegalCounts = ⟨st.illegalCounts Color.white + fuel,
          st.illegalCounts Color.black⟩ := by
  intro fuel
  induction fuel with
  | zero =>
      intro ply st
      exact ⟨_, rfl, rfl, rfl, rfl⟩
  | succ f ih =>
      intro ply st
      obtain ⟨ev, st2, hstep⟩ := chaos_zzzz_step R mtMs oracle ply st hor hmv
      obtain ⟨hothers, hcond⟩ := stepPly_continue_counts R .chaos mtMs oracle
        ply st [ev] st2 hstep
      rw [stepAccepted_zzzz R .chaos mtMs oracle ply st hor hmv] at hcond
      simp only [Bool.false_eq_true, if_false] at hcond
      have hac : activeColorOf R st = Color.white := by
        unfold activeColorOf
        rw [hturn]
        rfl
      rw [hac] at hcond hothers
      obtain ⟨r, hlast, hreason, hwinner, hcounts⟩ := ih (ply + 1) st2
      refine ⟨r, ?_, hreason, hwinner, ?_⟩
      · simp only [loopPlies, hstep, List.singleton_append]
        exact getLast?_cons_of_some _ hlast
      · rw [hcounts, hcond.1, hothers Color.black (by decide)]
        have harith : st.illegalCounts Color.white + 1 + f =
            st.illegalCounts Color.white + (f + 1) := by omega
        rw [harith]

/-- A move event carrying the chaos-execution note. -/
def hasChaosNote {K : Type} : MatchStreamEvent K → Bool
  | .move _ _ _ _ _ _ _ _ note _ =>
      note == some "Chaos move executed despite illegality"
  | _ => false

/-- C5: chaos matches never end by strike forfeiture — (i) the scripted
always-unparseable agent ("zzzz") plays the full 400 plies against a
library that rejects everything, accumulating 400 white strikes with the
match still ending in the max-move draw (so the 3-strike threshold fires
nowhere); and (ii) whenever a model's move is rejected by the rules library
but parses as from/to squares, the chaos variant executes it literally:
the step continues, the synthesized SAN token is appended to the move list,
the position is replaced by the chaos-produced FEN, and the emitted move
event carries the "Chaos move executed despite illegality" note. -/
theorem chaos_never_forfeits_and_executes_parsed_illegal :
    (∀ (σ K : Type) [_inst : LinearOrderedRing K] (R : RulesLib σ)
        (mtMs initialClock : K) (oracle : Nat → K → FetchOutcome),
      (∀ n t, oracle n t = FetchOutcome.ok "zzzz" 0) →
      (∀ s, R.move s "zzzz" = none) →
      (∀ s, R.turn s = PieceColor.w) →
      ∃ r, (runMatch R MatchMode.chaos mtMs initialClock oracle).getLast? =
          some (.endEvent r) ∧
        r.reason = MatchReason.maxMove ∧ r.winner = Winner.draw ∧
        r.illegalCounts = ⟨MAX_PLY, 0⟩) ∧
    (∀ (σ K : Type) [_inst : LinearOrderedRing K] (R : RulesLib σ) (mtMs : K)
        (oracle : Nat → K → FetchOutcome) (ply : Nat) (st : EngineState σ K)
        (text : String) (e : Nat) (u : UciMove) (c2 : σ),
      oracle ply (perMoveTimeout (MatchMode.chaos = MatchMode.bullet) mtMs
        (st.clocks (activeColorOf R st))) = FetchOutcome.ok text e →
      lowerChars (trimChars text.toList) ≠ "resign".toList →
      R.move st.chess (trimChars text.toList).asString = none →
      parseUciMove (lowerChars (trimChars text.toList)).asString = some u →
      R.fromFen (applyChaosMove st.fen u (R.turn st.chess) st.fullmove).fen =
        some c2 →
      ∃ evs st2, stepPly R MatchMode.chaos mtMs oracle ply st =
          (evs, some st2) ∧
        st2.moves = st.moves ++
          [(applyChaosMove st.fen u (R.turn st.chess) st.fullmove).san] ∧
        st2.fen = (applyChaosMove st.fen u (R.turn st.chess) st.fullmove).fen ∧
        st2.chess = c2 ∧
        evs.any hasChaosNote = true) := by
  constructor
  · intro σ K _inst R mtMs initialClock oracle hor hmv hturn
    obtain ⟨r, hlast, hreason, hwinner, hcounts⟩ :=
      chaos_zzzz_loop R mtMs oracle hor hmv hturn MAX_PLY 0
        (initState R initialClock)
    refine ⟨r, ?_, hreason, hwinner, ?_⟩
    · unfold runMatch
      dsimp only
      exact getLast?_cons_of_some _ hlast
    · rw [hcounts]
      rfl
  · intro σ K _inst R mtMs oracle ply st text e u c2 hor hresign hmove hparse hfen
    unfold stepPly
    dsimp only
    simp only [hor]
    unfold stepOk
    dsimp only
    rw [if_neg (by simp)]
    rw [if_neg hresign]
    simp only [chargeClock_chess]
    simp only [hmove]
    unfold stepIllegal
    dsimp only
    rw [if_pos rfl]
    simp only [hparse]
    simp only [chargeClock_fen, chargeClock_chess, chargeClock_fullmove,
      chargeClock_moves]
    simp only [hfen]
    refine ⟨_, _, rfl, ?_, ?_, ?_, ?_⟩
    · simp [chargeClock_moves]
    · rfl
    · rfl
    · simp [hasChaosNote]

/-- A model that always answers the parseable (but never legal) token
"a1a1" instantly. -/
def a1a1Oracle : Nat → ℤ → FetchOutcome := fun _ _ => .ok "a1a1" 0

/-- Witness for C5: part (i) at the always-"zzzz" agent over the
everything-rejecting library, part (ii) at the opening position with the
parseable rejected token "a1a1". -/
theorem chaos_never_forfeits_and_executes_parsed_illegal_witness :
    (∃ r, (runMatch stubRules MatchMode.chaos (12000 : ℤ) 0 zzzzOracle).getLast? =
        some (.endEvent r) ∧
      r.reason = MatchReason.maxMove ∧ r.winner = Winner.draw ∧
      r.illegalCounts = ⟨MAX_PLY, 0⟩) ∧
    (∃ evs st2, stepPly stubRules MatchMode.chaos (12000 : ℤ) a1a1Oracle 0
        (initState stubRules 0) = (evs, some st2) ∧
      st2.moves = (initState stubRules 0).moves ++
        [(applyChaosMove (initState stubRules 0).fen
          ⟨"a1".toList, "a1".toList, none⟩
          (stubRules.turn (initState stubRules 0).chess)
          (initState stubRules 0).fullmove).san] ∧
      st2.fen = (applyChaosMove (initState stubRules 0).fen
        ⟨"a1".toList, "a1".toList, none⟩
        (stubRules.turn (initState stubRules 0).chess)
        (initState stubRules 0).fullmove).fen ∧
      st2.chess = () ∧
      evs.any hasChaosNote = true) :=
  ⟨chaos_never_forfeits_and_executes_parsed_illegal.1 Unit ℤ stubRules 12000 0
      zzzzOracle (fun _ _ => rfl) (fun _ => rfl) (fun _ => rfl),
   chaos_never_forfeits_and_executes_parsed_illegal.2 Unit ℤ stubRules 12000
      a1a1Oracle 0 (initState stubRules 0) "a1a1" 0
      ⟨"a1".toList, "a1".toList, none⟩ () rfl (by decide) rfl (by decide) rfl⟩

/-! ## C8: round-trip replay of the reported move history -/

/-- The token pushed for an accepted move (route.ts line 487):
`moveResult.from + moveResult.to + (moveResult.promotion ?? "")`. -/
def uciOf (mr : MoveRes) : String := mr.fromS ++ mr.toS ++ mr.promotion.getD ""

/-- Replaying a token list from the initial position through the rules
library, `none` once any token is rejected. -/
def replayState {σ : Type} (R : RulesLib σ) (ms : List String) : Option σ :=
  ms.foldl (fun os m => os.bind fun s => (R.move s m).map Prod.snd) (some R.init)

/-- The final position obtained by replaying a token list. -/
def replayFen {σ : Type} (R : RulesLib σ) (ms : List String) : Option String :=
  (replayState R ms).map R.fen

theorem replayState_snoc {σ : Type} (R : RulesLib σ) (ms : List String)
    (m : String) :
    replayState R (ms ++ [m]) =
      (replayState R ms).bind fun s => (R.move s m).map Prod.snd := by
  unfold replayState
  rw [List.foldl_append]
  rfl

/-- Modelled from the spec (§6): determinism of the rules library under the
normalized move token — re-applying `from+to+promotion` of a move the
library just accepted, in the same position, reaches the same resulting
position. -/
def ReplayFaithful {σ : Type} (R : RulesLib σ) : Prop :=
  ∀ s raw mr s2, R.move s raw = some (mr, s2) →
    ∃ mr2, R.move s (uciOf mr) = some (mr2, s2)

/-- Replay invariant on a step outcome: a continuing state replays to its
own position; an ended stream closes with a result whose move list replays
to its reported final position. -/
def ReplayOK {σ K : Type} (R : RulesLib σ)
    (out : List (MatchStreamEvent K) × Option (EngineState σ K)) : Prop :=
  match out with
  | (_, some st') => replayState R st'.moves = some st'.chess
  | (evs, none) => ∃ evs0 r, evs = evs0 ++ [MatchStreamEvent.endEvent r] ∧
      replayFen R r.moves = some r.finalFen

theorem replayOK_cont {σ K : Type} (R : RulesLib σ)
    (evs : List (MatchStreamEvent K)) (st' : EngineState σ K)
    (h : replayState R st'.moves = some st'.chess) : ReplayOK R (evs, some st') :=
  h

theorem replayOK_end1 {σ K : Type} (R : RulesLib σ) (a : MatchStreamEvent K)
    (r : MatchResult K) (h : replayFen R r.moves = some r.finalFen) :
    ReplayOK R ([a, .endEvent r], none) :=
  ⟨[a], r, rfl, h⟩

theorem flagEnd_replay {σ K : Type} (R : RulesLib σ) (st : EngineState σ K)
    (ac : Color) (e : Nat) (hinv : replayState R st.moves = some st.chess) :
    ReplayOK R (flagEnd R st ac e) := by
  unfold flagEnd
  dsimp only
  exact replayOK_end1 _ _ _ (by simp [buildResult, replayFen, hinv])

theorem stepFail_replay {σ K : Type} [LinearOrderedRing K] (R : RulesLib σ)
    (mode : MatchMode) (ply : Nat) (st : EngineState σ K) (ac : Color)
    (message : String) (e : Nat)
    (hinv : replayState R st.moves = some st.chess) :
    ReplayOK R (stepFail R mode ply st ac message e) := by
  unfold stepFail
  dsimp only
  split_ifs
  · exact flagEnd_replay _ _ _ _ (by simpa using hinv)
  · exact replayOK_end1 _ _ _ (by simp [buildResult, replayFen, hinv])
  · exact replayOK_cont _ _ _ (by simpa using hinv)
  · exact replayOK_end1 _ _ _ (by simp [buildResult, replayFen, hinv])
  · exact replayOK_end1 _ _ _ (by simp [buildResult, replayFen, hinv])

theorem stepIllegal_replay {σ K : Type} [LinearOrderedRing K] (R : RulesLib σ)
    (mode : MatchMode) (ply : Nat) (st : EngineState σ K) (ac : Color)
    (rawTrimmed cleaned : List Char) (mt : Nat)
    (hmode : mode ≠ MatchMode.chaos)
    (hinv : replayState R st.moves = some st.chess) :
    ReplayOK R (stepIllegal R mode ply st ac rawTrimmed cleaned mt) := by
  unfold stepIllegal
  dsimp only
  split
  · rename_i hchaos
    exact absurd hchaos hmode
  · split
    · exact replayOK_end1 _ _ _ (by simp [buildResult, replayFen, hinv])
    · exact replayOK_cont _ _ _ (by simpa using hinv)

theorem stepLegal_replay {σ K : Type} [LinearOrderedRing K] (R : RulesLib σ)
    (mode : MatchMode) (ply : Nat) (st : EngineState σ K) (ac : Color)
    (mr : MoveRes) (chess2 : σ) (mt : Nat)
    (hkey : replayState R
        (st.moves ++ [mr.fromS ++ mr.toS ++ mr.promotion.getD ""]) =
      some chess2) :
    ReplayOK R (stepLegal R mode ply st ac mr chess2 mt) := by
  unfold stepLegal
  dsimp only
  split_ifs <;> first
    | exact replayOK_end1 _ _ _ (by simp [buildResult, replayFen, hkey])
    | exact replayOK_cont _ _ _ (by simpa using hkey)

theorem stepOk_replay {σ K : Type} [LinearOrderedRing K] (R : RulesLib σ)
    (mode : MatchMode) (ply : Nat) (st : EngineState σ K) (ac : Color)
    (text : String) (e : Nat)
    (hmode : mode ≠ MatchMode.chaos) (hA1 : ReplayFaithful R)
    (hinv : replayState R st.moves = some st.chess) :
    ReplayOK R (stepOk R mode ply st ac text e) := by
  unfold stepOk
  dsimp only
  split_ifs
  · exact flagEnd_replay _ _ _ _ (by simpa using hinv)
  · exact replayOK_end1 _ _ _ (by simp [buildResult, replayFen, hinv])
  · split
    · exact stepIllegal_replay R mode ply _ ac _ _ e hmode (by simpa using hinv)
    · rename_i mr chess2 hmv
      rw [chargeClock_chess] at hmv
      obtain ⟨mr2, hre⟩ := hA1 st.chess _ mr chess2 hmv
      refine stepLegal_replay R mode ply _ ac mr chess2 e ?_
      simp only [chargeClock_moves]
      rw [replayState_snoc, hinv]
      have hre' : R.move st.chess (mr.fromS ++ mr.toS ++ mr.promotion.getD "") =
          some (mr2, chess2) := hre
      show (R.move st.chess (mr.fromS ++ mr.toS ++ mr.promotion.getD "")).map
          Prod.snd = some chess2
      rw [hre']
      rfl

theorem stepPly_replay {σ K : Type} [LinearOrderedRing K] (R : RulesLib σ)
    (mode : MatchMode) (mtMs : K) (oracle : Nat → K → FetchOutcome)
    (ply : Nat) (st : EngineState σ K)
    (hmode : mode ≠ MatchMode.chaos) (hA1 : ReplayFaithful R)
    (hinv : replayState R st.moves = some st.chess) :
    ReplayOK R (stepPly R mode mtMs oracle ply st) := by
  unfold stepPly
  dsimp only
  split
  · exact stepFail_replay R mode ply st _ _ _ hinv
  · exact stepOk_replay R mode ply st _ _ _ hmode hA1 hinv

theorem loopPlies_replay {σ K : Type} [LinearOrderedRing K] (R : RulesLib σ)
    (mode : MatchMode) (mtMs : K) (oracle : Nat → K → FetchOutcome)
    (hmode : mode ≠ MatchMode.chaos) (hA1 : ReplayFaithful R) :
    ∀ (fuel ply : Nat) (st : EngineState σ K),
      replayState R st.moves = some st.chess →
      ∃ r, (loopPlies R mode mtMs oracle fuel ply st).getLast? =
          some (.endEvent r) ∧
        replayFen R r.moves = some r.finalFen := by
  intro fuel
  induction fuel with
  | zero =>
      intro ply st hinv
      exact ⟨_, rfl, by simp [buildResult, replayFen, hinv]⟩
  | succ f ih =>
      intro ply st hinv
      have hrep := stepPly_replay R mode mtMs oracle ply st hmode hA1 hinv
      rcases hout : stepPly R mode mtMs oracle ply st with ⟨evs, ost⟩
      rw [hout] at hrep
      cases ost with
      | none =>
          obtain ⟨evs0, r, rfl, hr⟩ := hrep
          refine ⟨r, ?_, hr⟩
          simp only [loopPlies, hout]
          simp
      | some st2 =>
          obtain ⟨r, hlast, hr⟩ := ih (ply + 1) st2 hrep
          refine ⟨r, ?_, hr⟩
          simp only [loopPlies, hout]
          rw [List.getLast?_append, hlast]
          rfl

/-- C8 (amended): in the strict and timed variants — under the modelled
determinism of the rules library on normalized tokens — every match's
final result satisfies the round trip: replaying `moves` in order from the
initial position through the library reproduces `finalFen` exactly.  The
chaos variant violates the original unrestricted claim (see the
counterexample): chaos-executed tokens are not replayable through the
library and the reported final position is synthesized outside it. -/
theorem replay_roundtrip_nonchaos (σ K : Type) [_inst : LinearOrderedRing K]
    (R : RulesLib σ) (mode : MatchMode) (mtMs initialClock : K)
    (oracle : Nat → K → FetchOutcome)
    (hmode : mode ≠ MatchMode.chaos) (hA1 : ReplayFaithful R) :
    ∃ r, (runMatch R mode mtMs initialClock oracle).getLast? =
        some (.endEvent r) ∧
      replayFen R r.moves = some r.finalFen := by
  obtain ⟨r, hlast, hr⟩ := loopPlies_replay R mode mtMs oracle hmode hA1
    MAX_PLY 0 (initState R initialClock) rfl
  refine ⟨r, ?_, hr⟩
  unfold runMatch
  dsimp only
  exact getLast?_cons_of_some _ hlast

/-- Witness for the amended C8 theorem: the strict scripted run over the
everything-rejecting library (whose replay-faithfulness is vacuous). -/
theorem replay_roundtrip_nonchaos_witness :
    ∃ r, (runMatch stubRules MatchMode.strict (12000 : ℤ) 0 zzzzOracle).getLast? =
        some (.endEvent r) ∧
      replayFen stubRules r.moves = some r.finalFen :=
  replay_roundtrip_nonchaos Unit ℤ stubRules MatchMode.strict 12000 0 zzzzOracle
    (by decide) (fun s raw mr s2 h => by simp [stubRules] at h)

/-- Modelled from the spec: a rules-library collaborator whose state is the
position string itself, matching chess.js on the inputs the counterexample
run exercises (§6): the tokens "a1a1" and the chaos-synthesized "a1a1" are
accepted in no position (attempt-move returns null on illegal input), the
side to move is the second FEN field, any FEN string constructs a state
whose reported FEN it is, square lookup reads the placement field, and no
terminal predicate holds in the two positions reached. -/
def chaosRules : RulesLib String :=
  { init := startFen
    fromFen := fun f => some f
    turn := fun f => if (jsSplitSpace f)[1]? = some "w" then .w else .b
    move := fun _ _ => none
    fen := fun f => f
    pgn := fun _ => ""
    historyNonempty := fun _ => false
    pieceAt := fun f sq => getSquare (fenBoard f) (squareToIndex sq)
    legalMoves := fun _ => []
    isCheckmate := fun _ => false
    isStalemate := fun _ => false
    isThreefoldRepetition := fun _ => false
    isInsufficientMaterial := fun _ => false
    isDraw := fun _ => false }

/-- The counterexample agent: a parseable rejected token, then resignation. -/
def c8Oracle : Nat → ℤ → FetchOutcome
  | 0, _ => .ok "a1a1" 0
  | _, _ => .ok "resign" 0

/-- Counterexample to C8 as stated: a chaos match ending in resignation
whose reported move list is the chaos-executed token "a1a1"; replaying it
through the rules library fails (the library rejects it), so the round trip
does not reproduce the reported final position. -/
theorem chaos_replay_roundtrip_fails :
    ((lastResult (runMatch chaosRules MatchMode.chaos (12000 : ℤ) 0 c8Oracle)).map
      (fun r => (r.reason, r.moves,
        decide (replayFen chaosRules r.moves = some r.finalFen)))) =
    some (MatchReason.resignation, ["a1a1"], false) := by decide

/-! ## C10: the initial clock allotment of timed matches -/

/-- C10: in the timed (bullet) variant the per-side initial clock is
`clamp(clockMinutes, 1, 3) × 60000` milliseconds — a missing or non-finite
allotment defaults to 3 minutes (180000ms), one above 3 is cut to 3, one
below 1 is raised to 1, and one within [1, 3] is used as given — and both
sides start the loop with exactly this value; in the untimed variants the
clocks are initialized to 0. -/
theorem initialClockMs_clamp_spec :
    (∀ (mode : MatchMode) (cm : Option JsNumber), mode ≠ MatchMode.bullet →
      initialClockMs mode cm = 0) ∧
    initialClockMs MatchMode.bullet none = 180000 ∧
    initialClockMs MatchMode.bullet (some JsNumber.nan) = 180000 ∧
    (∀ q : ℚ, 3 < q →
      initialClockMs MatchMode.bullet (some (JsNumber.finite q)) = 180000) ∧
    (∀ q : ℚ, q < 1 →
      initialClockMs MatchMode.bullet (some (JsNumber.finite q)) = 60000) ∧
    (∀ q : ℚ, 1 ≤ q → q ≤ 3 →
      initialClockMs MatchMode.bullet (some (JsNumber.finite q)) = q * 60000) ∧
    (∀ (σ : Type) (R : RulesLib σ) (mode : MatchMode) (cm : Option JsNumber)
      (c : Color),
      (initState R (initialClockMs mode cm)).clocks c =
        initialClockMs mode cm) := by
  refine ⟨?_, ?_, ?_, ?_, ?_, ?_, fun σ R mode cm c => rfl⟩
  · intro mode cm h
    unfold initialClockMs
    rw [if_neg h]
  · unfold initialClockMs safeClockMinutes
    norm_num
  · unfold initialClockMs safeClockMinutes
    norm_num
  · intro q h
    unfold initialClockMs safeClockMinutes
    rw [if_pos rfl, max_eq_right (by linarith), min_eq_left (le_of_lt h)]
    norm_num
  · intro q h
    unfold initialClockMs safeClockMinutes
    rw [if_pos rfl, max_eq_left (le_of_lt h)]
    norm_num
  · intro q h1 h3
    unfold initialClockMs safeClockMinutes
    rw [if_pos rfl, max_eq_right h1, min_eq_right h3]

/-- Witness for C10 at an untimed request, a 7-minute request, a half-minute
request and a 2-minute request. -/
theorem initialClockMs_clamp_spec_witness :
    initialClockMs MatchMode.strict (some (JsNumber.finite 7)) = 0 ∧
    initialClockMs MatchMode.bullet (some (JsNumber.finite 7)) = 180000 ∧
    initialClockMs MatchMode.bullet (some (JsNumber.finite (1/2))) = 60000 ∧
    initialClockMs MatchMode.bullet (some (JsNumber.finite 2)) = 2 * 60000 :=
  ⟨initialClockMs_clamp_spec.1 MatchMode.strict (some (JsNumber.finite 7))
      (by decide),
   initialClockMs_clamp_spec.2.2.2.1 7 (by norm_num),
   initialClockMs_clamp_spec.2.2.2.2.1 (1/2) (by norm_num),
   initialClockMs_clamp_spec.2.2.2.2.2.1 2 (by norm_num) (by norm_num)⟩
